import Mathlib

/-!
# The mailbox and delivery core of `lib/claude-brain.js`

A shallow embedding of the functions exported by `src/lib/claude-brain.js`
(`getPendingMessages`, `markProcessing`, `sendResponse`, `cleanupMessage`,
`buildContext`), of the listing of `src/claude-watch.js`, and of the part of the
Node.js runtime they call.

Modelling decisions
* A directory is a finite list of named entries, in the order `readdir` returns them.
  A name is a single path component; ids containing a path separator are outside
  the model.
* Every `await fs.*` call is one atomic step on the store.  An `async` function is a
  function from the world before the call to the world after it and the settlement
  of its promise (`Except Err α`: resolved or rejected).
* `JSON.parse`, `JSON.stringify`, `Date.now`, the coercion of a JSON value to a number
  and the behaviour of the relay endpoint are not code of this repository.  They are
  fields of `Host`; every theorem holds for every host.
* JSON numbers are restricted to integers (a timestamp is an integer number of
  milliseconds).
-/

namespace ClaudeBrain

/-! ## JavaScript strings -/

/-- The method `String.prototype.endsWith`. -/
def endsWith (s suffix : String) : Bool := suffix.data.isSuffixOf s.data

/-- The method `String.prototype.startsWith`. -/
def startsWith (s pre : String) : Bool := pre.data.isPrefixOf s.data

/-- Replace the first occurrence of `pat` in a list of characters by `rep`. -/
def replaceFirst (pat rep : List Char) : List Char → List Char
  | [] => if pat.isEmpty then rep else []
  | c :: cs =>
    if pat.isPrefixOf (c :: cs) then rep ++ (c :: cs).drop pat.length
    else c :: replaceFirst pat rep cs

/-- The method `String.prototype.replace` with a string pattern: only the first
occurrence of the pattern is replaced. -/
def replace (s pat rep : String) : String := String.mk (replaceFirst pat.data rep.data s.data)

/-! ## JSON values and JavaScript objects -/

/-- A value produced by `JSON.parse`. -/
inductive Json where
  | null
  | bool (b : Bool)
  | num (n : Int)
  | str (s : String)
  | arr (items : List Json)
  | obj (members : List (String × Json))
  deriving Repr, Inhabited

/-- A plain JavaScript object: its own enumerable properties. -/
abbrev Obj := List (String × Json)

/-- Property read `o[k]`; `none` is `undefined`. -/
def Obj.get (o : Obj) (k : String) : Option Json := o.lookup k

/-- Property write `o[k] = v`: an existing property keeps its place, a new one is
added at the end. -/
def Obj.set : Obj → String → Json → Obj
  | [], k, v => [(k, v)]
  | (k', v') :: rest, k, v => if k' = k then (k, v) :: rest else (k', v') :: Obj.set rest k v

/-- The own enumerable properties that the spread `...data` copies: the members of
an object, the indexed elements of an array, the indexed characters of a string,
nothing for a number, a boolean or `null`. -/
def spreadProps : Json → List (String × Json)
  | .obj members => members
  | .arr items => items.enum.map (fun p => (toString p.1, p.2))
  | .str s => s.data.enum.map (fun p => (toString p.1, Json.str (String.singleton p.2)))
  | _ => []

/-- The object literal `{ ...base, ...data }`: properties of `data` are written over
those of `base`, in order. -/
def spread (base : Obj) (data : Json) : Obj :=
  (spreadProps data).foldl (fun o p => o.set p.1 p.2) base

/-! ## Errors, the file store and the host -/

/-- The errors a call can be rejected with. -/
inductive Err where
  /-- The named entry or directory does not exist. -/
  | ENOENT
  /-- The entry exists but the operation on it is refused. -/
  | EACCES
  /-- The error thrown by `JSON.parse` on malformed text. -/
  | SyntaxError
  /-- The error event of a WebSocket. -/
  | ws (reason : String)
  deriving DecidableEq, Repr

/-- An entry of a directory. -/
inductive Node where
  /-- A regular file and its UTF-8 text. -/
  | text (content : String)
  /-- An entry whose content can be neither read nor overwritten. -/
  | locked
  deriving DecidableEq, Repr

/-- The entries of a directory, in listing order. -/
abbrev Dir := List (String × Node)

/-- A directory of the data tree. -/
inductive DirState where
  /-- The directory has not been created yet. -/
  | absent
  /-- The path cannot be created or listed. -/
  | blocked
  /-- The directory exists. -/
  | present (entries : Dir)
  deriving DecidableEq, Repr

/-- The call `fs.mkdir(dir, { recursive: true })`. -/
def mkdirp : DirState → Except Err DirState
  | .absent => .ok (.present [])
  | .blocked => .error .EACCES
  | .present d => .ok (.present d)

/-- The call `fs.readdir(dir)`. -/
def readdir : DirState → Except Err (List String)
  | .absent => .error .ENOENT
  | .blocked => .error .EACCES
  | .present d => .ok (d.map Prod.fst)

/-- The call `fs.readFile(path.join(dir, name), 'utf-8')`. -/
def readFile : DirState → String → Except Err String
  | .absent, _ => .error .ENOENT
  | .blocked, _ => .error .EACCES
  | .present d, name =>
    match d.lookup name with
    | none => .error .ENOENT
    | some .locked => .error .EACCES
    | some (.text c) => .ok c

/-- The call `fs.writeFile(path.join(dir, name), content)`: creates or overwrites. -/
def writeFile : DirState → String → String → Except Err DirState
  | .absent, _, _ => .error .ENOENT
  | .blocked, _, _ => .error .EACCES
  | .present d, name, content =>
    match d.lookup name with
    | some .locked => .error .EACCES
    | some (.text _) =>
      .ok (.present (d.map (fun e => if e.1 = name then (name, Node.text content) else e)))
    | none => .ok (.present (d ++ [(name, Node.text content)]))

/-- The call `fs.rename(path.join(dir, src), path.join(dir, tgt))`: fails when the
source is missing, otherwise the source entry disappears and the target name holds
what the source held (replacing what the target held). -/
def rename : DirState → String → String → Except Err DirState
  | .absent, _, _ => .error .ENOENT
  | .blocked, _, _ => .error .EACCES
  | .present d, src, tgt =>
    match d.lookup src with
    | none => .error .ENOENT
    | some node =>
      if src = tgt then .ok (.present d)
      else .ok (.present (d.filter (fun e => e.1 != src && e.1 != tgt) ++ [(tgt, node)]))

/-- The call `fs.unlink(path.join(dir, name))`. -/
def unlink : DirState → String → Except Err DirState
  | .absent, _ => .error .ENOENT
  | .blocked, _ => .error .EACCES
  | .present d, name =>
    match d.lookup name with
    | none => .error .ENOENT
    | some _ => .ok (.present (d.filter (fun e => e.1 != name)))

/-- An observable action of the process, other than a change of the store. -/
inductive Effect where
  /-- The call `new WebSocket(url)`. -/
  | connect (url : String)
  /-- The call `ws.send(data)`. -/
  | send (data : String)
  /-- The call `ws.close()`. -/
  | close
  /-- The call `console.error(tag, error)`. -/
  | consoleError (tag : String) (e : Err)
  deriving DecidableEq, Repr

/-- The state the module acts on: the two directories under `data/` and the
actions performed so far, oldest first. -/
structure World where
  pending : DirState
  responses : DirState
  trace : List Effect
  deriving DecidableEq, Repr

/-- The runtime the module is loaded in. -/
structure Host where
  /-- The value of `path.join(__dirname, '..', 'data')`. -/
  dataDir : String
  /-- The variable `process.env.WS_URL`. -/
  envWsUrl : Option String
  /-- The value `Date.now()` returns. -/
  now : Int
  /-- The function `JSON.parse`; `none` when it throws. -/
  parse : String → Option Json
  /-- The function `JSON.stringify(value, null, indent)`. -/
  stringify : Json → Nat → String
  /-- The coercion of a JSON value to a number by the operator `-`; `none` is `NaN`. -/
  toNumber : Json → Option Int
  /-- What opening a WebSocket to a URL leads to: the `open` event (`none`) or the
  `error` event. -/
  dial : String → Option Err

/-- The call `path.join(dir, name)` for a single component `name`. -/
def pathJoin (dir name : String) : String := dir ++ "/" ++ name

/-- The constant `DATA_DIR`. -/
def DATA_DIR (H : Host) : String := H.dataDir

/-- The constant `PENDING_DIR`. -/
def PENDING_DIR (H : Host) : String := pathJoin (DATA_DIR H) ".pending"

/-- The constant `RESPONSES_DIR`. -/
def RESPONSES_DIR (H : Host) : String := pathJoin (DATA_DIR H) ".responses"

/-- The constant `WS_URL`. -/
def WS_URL (H : Host) : String :=
  match H.envWsUrl with
  | some u => if u.isEmpty then "ws://localhost:8765" else u
  | none => "ws://localhost:8765"

/-- The entry of a directory under a name, when the directory is there and holds it. -/
def entry : DirState → String → Option Node
  | .present d, name => d.lookup name
  | _, _ => none

/-! ## `getPendingMessages` -/

/-- The filter of line 28: `f.endsWith('.json') && !f.startsWith('.processing')`. -/
def isPendingFile (f : String) : Bool := endsWith f ".json" && !startsWith f ".processing"

/-- The object pushed at lines 35-39: `{ id: file.replace('.json', ''), filepath, ...data }`. -/
def mkMessage (H : Host) (file : String) (data : Json) : Obj :=
  spread [("id", Json.str (replace file ".json" "")),
          ("filepath", Json.str (pathJoin (PENDING_DIR H) file))] data

/-- The loop of lines 31-40: read and parse each file in turn, stop at the first failure. -/
def readMessages (H : Host) (dir : DirState) : List String → Except Err (List Obj)
  | [] => .ok []
  | file :: rest =>
    match readFile dir file with
    | .error e => .error e
    | .ok content =>
      match H.parse content with
      | none => .error .SyntaxError
      | some data =>
        match readMessages H dir rest with
        | .error e => .error e
        | .ok messages => .ok (mkMessage H file data :: messages)

/-- The operand `m.timestamp` as a number; `none` is `NaN`. -/
def timestampOf (H : Host) (m : Obj) : Option Int :=
  match m.get "timestamp" with
  | none => none
  | some (.num n) => some n
  | some v => H.toNumber v

/-- The comparator of line 42, `(a, b) => a.timestamp - b.timestamp`, as `sort` uses
it: a `NaN` result counts as `0`. -/
def compareFn (H : Host) (a b : Obj) : Int :=
  match timestampOf H a, timestampOf H b with
  | some x, some y => x - y
  | _, _ => 0

/-- The method `Array.prototype.sort(compareFn)`: a stable sort that puts `a` before `b`
when `compareFn(a, b) < 0`.  On a comparator that is not a consistent ordering the
standard leaves the order open; this model then still returns a permutation. -/
def sort {α : Type} (cmp : α → α → Int) (xs : List α) : List α :=
  xs.insertionSort (fun a b => cmp a b ≤ 0)

/-- The `try` block of `getPendingMessages`, lines 26-42. -/
def getPendingMessagesTry (H : Host) (w : World) : World × Except Err (List Obj) :=
  match mkdirp w.pending with
  | .error e => (w, .error e)
  | .ok d =>
    let w1 := { w with pending := d }
    match readdir d with
    | .error e => (w1, .error e)
    | .ok files =>
      match readMessages H d (files.filter isPendingFile) with
      | .error e => (w1, .error e)
      | .ok messages => (w1, .ok (sort (compareFn H) messages))

/-- The function `getPendingMessages`, lines 24-47. -/
def getPendingMessages (H : Host) (w : World) : World × Except Err (List Obj) :=
  match getPendingMessagesTry H w with
  | (w1, .ok messages) => (w1, .ok messages)
  | (w1, .error e) =>
    ({ w1 with trace := w1.trace ++
        [Effect.consoleError "[Claude Brain] Error reading pending messages:" e] }, .ok [])

/-! ## `markProcessing` and `cleanupMessage` -/

/-- The name of a pending request file, `${messageId}.json`. -/
def pendingName (messageId : String) : String := messageId ++ ".json"

/-- The name of a claim marker, `.processing-${messageId}.json`. -/
def processingName (messageId : String) : String := ".processing-" ++ messageId ++ ".json"

/-- The `try` block of `markProcessing`, line 57: the rename step. -/
def markProcessingTry (messageId : String) (w : World) : Except Err World :=
  match rename w.pending (pendingName messageId) (processingName messageId) with
  | .ok d => .ok { w with pending := d }
  | .error e => .error e

/-- The function `markProcessing`, lines 52-61. -/
def markProcessing (messageId : String) (w : World) : World × Except Err Unit :=
  match markProcessingTry messageId w with
  | .ok w1 => (w1, .ok ())
  | .error e =>
    ({ w with trace := w.trace ++
        [Effect.consoleError "[Claude Brain] Error marking message as processing:" e] }, .ok ())

/-- The function `cleanupMessage`, lines 113-121. -/
def cleanupMessage (messageId : String) (w : World) : World × Except Err Unit :=
  match unlink w.pending (processingName messageId) with
  | .ok d => ({ w with pending := d }, .ok ())
  | .error _ => (w, .ok ())

/-! ## `sendResponse` -/

/-- The object `responseData` of lines 71-77. -/
def responseData (H : Host) (requestId response : String) (metadata : Obj) : Obj :=
  [("requestId", Json.str requestId), ("response", Json.str response),
   ("timestamp", Json.num H.now), ("metadata", Json.obj metadata),
   ("source", Json.str "claude-code")]

/-- The object sent at lines 87-93. -/
def frame (requestId response : String) (metadata : Obj) : Obj :=
  [("type", Json.str "chat_response"), ("requestId", Json.str requestId),
   ("message", Json.str response), ("metadata", Json.obj metadata),
   ("source", Json.str "claude-code")]

/-- The name of a response record, `resp-${requestId}.json`. -/
def responseName (requestId : String) : String := "resp-" ++ requestId ++ ".json"

/-- The text written at line 80, `JSON.stringify(responseData, null, 2)`. -/
def responseText (H : Host) (requestId response : String) (metadata : Obj) : String :=
  H.stringify (Json.obj (responseData H requestId response metadata)) 2

/-- Lines 68-80 of `sendResponse`: create the directory and write the record. -/
def persist (H : Host) (requestId response : String) (metadata : Obj) (w : World) :
    World × Except Err Unit :=
  match mkdirp w.responses with
  | .error e => (w, .error e)
  | .ok d =>
    match writeFile d (responseName requestId) (responseText H requestId response metadata) with
    | .error e => ({ w with responses := d }, .error e)
    | .ok d1 => ({ w with responses := d1 }, .ok ())

/-- Lines 83-103 of `sendResponse`: the promise around one WebSocket. -/
def deliver (H : Host) (requestId response : String) (metadata : Obj) (w : World) :
    World × Except Err Unit :=
  let opened := { w with trace := w.trace ++ [Effect.connect (WS_URL H)] }
  match H.dial (WS_URL H) with
  | none =>
    ({ opened with trace := opened.trace ++
        [Effect.send (H.stringify (Json.obj (frame requestId response metadata)) 0),
         Effect.close] }, .ok ())
  | some e =>
    ({ opened with trace := opened.trace ++
        [Effect.consoleError "[Claude Brain] WebSocket error:" e] }, .error e)

/-- The function `sendResponse`, lines 66-108.  A failure of `mkdir` or `writeFile` is
caught, logged and thrown again; the returned promise is not awaited inside the `try`,
so its rejection is passed on without that log line. -/
def sendResponse (H : Host) (requestId response : String) (metadata : Obj) (w : World) :
    World × Except Err Unit :=
  match persist H requestId response metadata w with
  | (w1, .error e) =>
    ({ w1 with trace := w1.trace ++
        [Effect.consoleError "[Claude Brain] Error sending response:" e] }, .error e)
  | (w1, .ok ()) => deliver H requestId response metadata w1

/-! ## `buildContext` -/

/-- The object `context` of lines 127-132. -/
structure Context where
  profile : Option String
  challenges : List Json
  tasks : List Json
  recentActivity : List Json
  deriving Repr

/-- The function `buildContext`, lines 126-143.  The argument `profiles` is the tree
`data/profiles` indexed by profile id: the entry of an id is its file `profile.md`.
An omitted `profileId` is `'default'`. -/
def buildContext (profiles : DirState) (profileId : Option String) : Except Err Context :=
  let context : Context := ⟨none, [], [], []⟩
  match readFile profiles (profileId.getD "default") with
  | .ok text => .ok { context with profile := some text }
  | .error _ => .ok context

/-! ## The listing of `claude-watch.js` -/

namespace Watch

/-- The call `fs.existsSync(dir)`. -/
def existsSync : DirState → Bool
  | .absent => false
  | _ => true

/-- The callback of `files.map`, lines 50-57 of `claude-watch.js`: the object
`{ ...data, filename: f }`, or `null` (here `none`) when reading or parsing throws. -/
def readOne (H : Host) (dir : DirState) (f : String) : Option Obj :=
  match readFile dir f with
  | .error _ => none
  | .ok content =>
    match H.parse content with
    | none => none
    | some data => some ((spread [] data).set "filename" (Json.str f))

/-- The function `getPendingMessages` of `claude-watch.js`, lines 43-59.  It is
synchronous; an exception of `mkdirSync` or `readdirSync` is not caught. -/
def getPendingMessages (H : Host) (w : World) : World × Except Err (List Obj) :=
  if !existsSync w.pending then
    match mkdirp w.pending with
    | .ok d => ({ w with pending := d }, .ok [])
    | .error e => (w, .error e)
  else
    match readdir w.pending with
    | .error e => (w, .error e)
    | .ok names =>
      (w, .ok ((names.filter (fun f => endsWith f ".json")).filterMap (readOne H w.pending)))

end Watch

/-! ## A concrete host

A parser and a printer for the fragment of JSON without escape sequences, fractions
and exponents.  They stand in for `JSON.parse` and `JSON.stringify` where a function
is evaluated on a concrete store; no general theorem depends on them. -/

namespace Demo

/-- JSON white space. -/
def isWs (c : Char) : Bool := c.toNat = 32 || c.toNat = 10 || c.toNat = 13 || c.toNat = 9

/-- Drop leading white space. -/
def skipWs : List Char → List Char
  | [] => []
  | c :: cs => if isWs c then skipWs cs else c :: cs

/-- Read a run of decimal digits. -/
def digits (acc : Nat) : List Char → Nat × List Char
  | [] => (acc, [])
  | c :: cs => if c.isDigit then digits (acc * 10 + (c.toNat - 48)) cs else (acc, c :: cs)

/-- Read a string up to its closing quote; escape sequences are outside the fragment. -/
def stringBody (acc : List Char) : List Char → Option (String × List Char)
  | [] => none
  | c :: cs =>
    if c.toNat = 34 then some (String.mk acc.reverse, cs)
    else if c.toNat = 92 ∨ c.toNat < 32 then none
    else stringBody (c :: acc) cs

/-- Read one of the words `true`, `false`, `null`. -/
def literal (word : String) (v : Json) (cs : List Char) : Option (Json × List Char) :=
  if word.data.isPrefixOf cs then some (v, cs.drop word.length) else none

/-! The grammar of values, object members and array elements, by recursion on a bound of the nesting depth. -/
mutual
def value : Nat → List Char → Option (Json × List Char)
  | 0, _ => none
  | fuel + 1, cs =>
    match skipWs cs with
    | [] => none
    | c :: rest =>
      if c.toNat = 123 then
        match skipWs rest with
        | [] => none
        | c1 :: rest1 =>
          if c1.toNat = 125 then some (Json.obj [], rest1)
          else (members fuel (c1 :: rest1)).map (fun r => (Json.obj r.1, r.2))
      else if c.toNat = 91 then
        match skipWs rest with
        | [] => none
        | c1 :: rest1 =>
          if c1.toNat = 93 then some (Json.arr [], rest1)
          else (elements fuel (c1 :: rest1)).map (fun r => (Json.arr r.1, r.2))
      else if c.toNat = 34 then (stringBody [] rest).map (fun r => (Json.str r.1, r.2))
      else if c.toNat = 45 then
        match rest with
        | d :: _ => if d.isDigit then
            let r := digits 0 rest
            some (Json.num (-(r.1 : Int)), r.2) else none
        | [] => none
      else if c.isDigit then
        let r := digits 0 (c :: rest)
        some (Json.num (r.1 : Int), r.2)
      else if c.toNat = 116 then literal "true" (Json.bool true) (c :: rest)
      else if c.toNat = 102 then literal "false" (Json.bool false) (c :: rest)
      else if c.toNat = 110 then literal "null" Json.null (c :: rest)
      else none
def members : Nat → List Char → Option (List (String × Json) × List Char)
  | 0, _ => none
  | fuel + 1, cs =>
    match skipWs cs with
    | [] => none
    | c :: rest =>
      if c.toNat = 34 then
        match stringBody [] rest with
        | none => none
        | some (k, rest1) =>
          match skipWs rest1 with
          | [] => none
          | c2 :: rest2 =>
            if c2.toNat = 58 then
              match value fuel rest2 with
              | none => none
              | some (v, rest3) =>
                match skipWs rest3 with
                | [] => none
                | c4 :: rest4 =>
                  if c4.toNat = 125 then some ([(k, v)], rest4)
                  else if c4.toNat = 44 then
                    (members fuel rest4).map (fun r => ((k, v) :: r.1, r.2))
                  else none
            else none
      else none
def elements : Nat → List Char → Option (List Json × List Char)
  | 0, _ => none
  | fuel + 1, cs =>
    match value fuel cs with
    | none => none
    | some (v, rest) =>
      match skipWs rest with
      | [] => none
      | c :: rest1 =>
        if c.toNat = 93 then some ([v], rest1)
        else if c.toNat = 44 then (elements fuel rest1).map (fun r => (v :: r.1, r.2))
        else none
end

/-- Parse a whole text: one value, then only white space. -/
def parse (s : String) : Option Json :=
  match value (s.length + 1) s.data with
  | some (v, rest) => if (skipWs rest).isEmpty then some v else none
  | none => none

/-- A string between double quotes. -/
def quote (s : String) : String := String.mk (Char.ofNat 34 :: (s.data ++ [Char.ofNat 34]))

/-- A line break followed by the indentation of a nesting level; nothing when the
indent is zero. -/
def lineBreak (indent level : Nat) : String :=
  if indent = 0 then "" else String.mk (Char.ofNat 10 :: List.replicate (indent * level) (Char.ofNat 32))

/-! The printer, with the line breaks and indentation `JSON.stringify` produces. -/
mutual
def render (indent level : Nat) : Json → String
  | .null => "null"
  | .bool b => if b then "true" else "false"
  | .num n => toString n
  | .str s => quote s
  | .arr [] => "[]"
  | .arr (x :: xs) =>
    "[" ++ lineBreak indent (level + 1) ++ renderItems indent (level + 1) (x :: xs) ++
      lineBreak indent level ++ "]"
  | .obj [] => String.mk [Char.ofNat 123, Char.ofNat 125]
  | .obj (m :: ms) =>
    String.mk [Char.ofNat 123] ++ lineBreak indent (level + 1) ++
      renderMembers indent (level + 1) (m :: ms) ++ lineBreak indent level ++
      String.mk [Char.ofNat 125]
def renderItems (indent level : Nat) : List Json → String
  | [] => ""
  | [x] => render indent level x
  | x :: y :: rest =>
    render indent level x ++ "," ++ lineBreak indent level ++ renderItems indent level (y :: rest)
def renderMembers (indent level : Nat) : List (String × Json) → String
  | [] => ""
  | [(k, v)] => quote k ++ (if indent = 0 then ":" else ": ") ++ render indent level v
  | (k, v) :: m :: rest =>
    quote k ++ (if indent = 0 then ":" else ": ") ++ render indent level v ++ "," ++
      lineBreak indent level ++ renderMembers indent level (m :: rest)
end
/-- Print a value with the given indent. -/
def stringify (v : Json) (indent : Nat) : String := render indent 0 v

/-- The coercion to a number of the values for which it needs no text to be read:
`null` is `0`, `false` is `0`, `true` is `1`; the other values count as `NaN` here. -/
def toNumber : Json → Option Int
  | .null => some 0
  | .bool b => some (if b then 1 else 0)
  | .num n => some n
  | _ => none

end Demo

/-- A host whose relay accepts every connection. -/
def demoHost : Host where
  dataDir := "/srv/app/data"
  envWsUrl := none
  now := 1700000000000
  parse := Demo.parse
  stringify := Demo.stringify
  toNumber := Demo.toNumber
  dial := fun _ => none

/-- The same host with a relay that refuses every connection. -/
def offlineHost : Host := { demoHost with dial := fun _ => some (Err.ws "ECONNREFUSED") }

/-! ## Concrete stores used to evaluate the functions -/

/-- The text of the request of the end-to-end scenario:
`{"id":"abc","agentId":"unified","content":"hi","timestamp":1000}`. -/
def abcText : String :=
  "\x7b\"id\":\"abc\",\"agentId\":\"unified\",\"content\":\"hi\",\"timestamp\":1000\x7d"

/-- A mailbox whose pending directory exists and is empty. -/
def emptyMailbox : World := ⟨.present [], .absent, []⟩

/-- A mailbox holding the single pending request `abc.json`. -/
def abcMailbox : World := ⟨.present [("abc.json", Node.text abcText)], .absent, []⟩

/-! ## Observations on a mailbox, used to state the properties -/

/-- The entries of a directory that exists; no entry otherwise. -/
def files : DirState → Dir
  | .present d => d
  | _ => []

/-- The unclaimed request files of a directory: the entries whose name passes the
filter of line 28. -/
def unclaimed (d : Dir) : Dir := d.filter (fun e => isPendingFile e.1)

/-- The record the listing builds from one entry: lines 33-39 on a file that can be
read and parsed, nothing otherwise. -/
def recordOf (H : Host) (e : String × Node) : Option Obj :=
  match e.2 with
  | .text c => (H.parse c).map (mkMessage H e.1)
  | .locked => none

/-- The timestamp of a record when it is an integer number. -/
def intTimestamp (m : Obj) : Option Int :=
  match m.get "timestamp" with
  | some (.num n) => some n
  | _ => none

/-- The `id` of a record when it is a string. -/
def idOf (m : Obj) : Option String :=
  match m.get "id" with
  | some (.str s) => some s
  | _ => none

/-- The records a call of `getPendingMessages` resolves with, in order. -/
def listed (H : Host) (w : World) : List Obj :=
  match (getPendingMessages H w).2 with
  | .ok messages => messages
  | .error _ => []

/-- The ids of the records a call of `getPendingMessages` resolves with, in order. -/
def listedIds (H : Host) (w : World) : List (Option String) := (listed H w).map idOf

/-- The stem of a request file name: the name without its last five characters, the
suffix `.json`. -/
def stem (file : String) : String := String.mk (file.data.take (file.data.length - 5))

/-- The text `{"timestamp":n}`. -/
def stampText (n : Nat) : String :=
  "\x7b\"timestamp\":" ++ toString n ++ "\x7d"

/-- The mailbox of the ordering example: requests `A`, `B`, `C`, listed in that
order, with timestamps 300, 100, 200. -/
def orderMailbox : World :=
  ⟨.present [("A.json", Node.text (stampText 300)), ("B.json", Node.text (stampText 100)),
             ("C.json", Node.text (stampText 200))], .absent, []⟩

/-- The text `{"id":"abc","timestamp":2000}`. -/
def aliasText : String := "\x7b\"id\":\"abc\",\"timestamp\":2000\x7d"

/-- A mailbox holding `abc.json` and a second request file, `other.json`, whose
content names itself `abc`. -/
def aliasMailbox : World :=
  ⟨.present [("abc.json", Node.text abcText), ("other.json", Node.text aliasText)], .absent, []⟩

/-- A world whose response record for `r9` cannot be overwritten. -/
def lockedResponses : World :=
  ⟨.present [], .present [("resp-r9.json", Node.locked)], []⟩

/-- The text of a file that is not JSON. -/
def brokenText : String := "\x7b\"timestamp\":"

/-- A mailbox holding one well-formed request and one file of malformed JSON. -/
def brokenMailbox : World :=
  ⟨.present [("A.json", Node.text (stampText 300)), ("bad.json", Node.text brokenText)],
    .absent, []⟩

/-- A mailbox whose pending directory cannot be created or listed. -/
def blockedMailbox : World := ⟨.blocked, .absent, []⟩

/-- The value `JSON.parse` yields for the text of an entry, when the entry can be
read and parsed. -/
def dataOf (H : Host) (e : String × Node) : Option Json :=
  match e.2 with
  | .text c => H.parse c
  | .locked => none

/-- The ids of the records the listing of `claude-watch.js` returns, in order. -/
def watchedIds (H : Host) (w : World) : List (Option String) :=
  match (Watch.getPendingMessages H w).2 with
  | .ok messages => messages.map idOf
  | .error _ => []

/-- The file names of the records the listing of `claude-watch.js` returns, in order. -/
def watchedFiles (H : Host) (w : World) : List (Option String) :=
  match (Watch.getPendingMessages H w).2 with
  | .ok messages => messages.map (fun m =>
      match m.get "filename" with
      | some (.str f) => some f
      | _ => none)
  | .error _ => []

/-- The parsed request of the end-to-end scenario. -/
def abcRecord : Obj :=
  [("id", Json.str "abc"), ("agentId", Json.str "unified"), ("content", Json.str "hi"),
   ("timestamp", Json.num 1000)]

/-- A mailbox whose only entry is the claim marker of `abc`. -/
def claimedMailbox : World :=
  ⟨.present [(".processing-abc.json", Node.text abcText)], .absent, []⟩

/-- Two requests with the same timestamp, listed `b` first. -/
def tieMailbox : World :=
  ⟨.present [("b.json", Node.text (stampText 100)), ("a.json", Node.text (stampText 100))],
    .absent, []⟩

/-- The same two requests, listed `a` first. -/
def tieMailboxSwapped : World :=
  ⟨.present [("a.json", Node.text (stampText 100)), ("b.json", Node.text (stampText 100))],
    .absent, []⟩

/-- A profile tree holding the profile of `anit-gmail-co` and an unreadable one. -/
def demoProfiles : DirState :=
  .present [("anit-gmail-co", Node.text "# Anit"), ("sealed", Node.locked)]

/-- The `id` property that the spread `...data` copies from the content of a file,
the value of `{ ...data }.id`; `none` when the content carries no `id`. -/
def contentId (data : Json) : Option Json := (spread [] data).get "id"

/-- Evaluate to `true` when the content carries the string `s` as its `id`. -/
def carriesId (data : Json) (s : String) : Bool :=
  match contentId data with
  | some (.str t) => t == s
  | _ => false

/-- A mailbox with a request whose content names its own id, `abc.json`, and a
request whose content carries no id, `B.json`. -/
def mixedMailbox : World :=
  ⟨.present [("abc.json", Node.text abcText), ("B.json", Node.text (stampText 100))],
    .absent, []⟩

/-! ## Facts about the store -/

theorem lookup_append_dir (k : String) (d₁ d₂ : Dir) :
    (d₁ ++ d₂).lookup k = (d₁.lookup k).orElse (fun _ => d₂.lookup k) := by
  induction d₁ with
  | nil => simp
  | cons e rest ih =>
    obtain ⟨k', v⟩ := e
    by_cases hk : k = k'
    · subst hk; simp [List.lookup]
    · have hb : (k == k') = false := by simpa using hk
      simp [List.lookup, hb, ih]

theorem lookup_filter_dir (p : String → Bool) (k : String) (d : Dir) :
    (d.filter (fun e => p e.1)).lookup k = if p k then d.lookup k else none := by
  induction d with
  | nil => simp
  | cons e rest ih =>
    obtain ⟨k', v⟩ := e
    by_cases hk : k = k'
    · subst hk
      by_cases hp : p k <;> simp [List.filter, List.lookup, hp, ih]
    · have hb : (k == k') = false := by simpa using hk
      by_cases hp : p k' <;> simp [List.filter, List.lookup, hp, hb, ih]

theorem lookup_without_two (a b k : String) (d : Dir) :
    (d.filter (fun e => e.1 != a && e.1 != b)).lookup k =
      if k = a ∨ k = b then none else d.lookup k := by
  have h := lookup_filter_dir (fun n => n != a && n != b) k d
  simp only [h]
  by_cases ha : k = a <;> by_cases hb : k = b <;> simp [ha, hb]

theorem lookup_without (a k : String) (d : Dir) :
    (d.filter (fun e => e.1 != a)).lookup k = if k = a then none else d.lookup k := by
  have h := lookup_filter_dir (fun n => n != a) k d
  simp only [h]
  by_cases ha : k = a <;> simp [ha]

theorem pendingName_ne_processingName (messageId : String) :
    pendingName messageId ≠ processingName messageId := by
  intro h
  have hlen := congrArg String.length h
  simp only [pendingName, processingName, String.length_append] at hlen
  have h1 : (".json" : String).length = 5 := by decide
  have h2 : (".processing-" : String).length = 12 := by decide
  omega

/-- After a rename to a different name the source is gone and the target holds what
the source held. -/
theorem rename_present (d : Dir) (src tgt : String) (node : Node)
    (hsrc : d.lookup src = some node) (hne : src ≠ tgt) :
    ∃ d', rename (.present d) src tgt = .ok (.present d') ∧
      d'.lookup src = none ∧ d'.lookup tgt = some node := by
  refine ⟨d.filter (fun e => e.1 != src && e.1 != tgt) ++ [(tgt, node)], ?_, ?_, ?_⟩
  · simp [rename, hsrc, hne]
  · have hb : (src == tgt) = false := by simpa using hne
    simp [lookup_append_dir, lookup_without_two, List.lookup, hb]
  · simp [lookup_append_dir, lookup_without_two, List.lookup]

/-! ## Claiming a request: `markProcessing` -/

/-- The rename step on a store that holds `<id>.json`, and the same step again. -/
theorem markProcessingTry_present (messageId : String) (w : World) (node : Node)
    (h : entry w.pending (pendingName messageId) = some node) :
    ∃ w1 : World,
      markProcessingTry messageId w = .ok w1 ∧
      w1.responses = w.responses ∧ w1.trace = w.trace ∧
      entry w1.pending (pendingName messageId) = none ∧
      entry w1.pending (processingName messageId) = some node ∧
      markProcessingTry messageId w1 = .error Err.ENOENT := by
  obtain ⟨p, r, t⟩ := w
  cases p with
  | absent => simp [entry] at h
  | blocked => simp [entry] at h
  | present d =>
    simp only [entry] at h
    obtain ⟨d', hd', hsrc, htgt⟩ :=
      rename_present d _ _ node h (pendingName_ne_processingName messageId)
    refine ⟨⟨.present d', r, t⟩, ?_, rfl, rfl, ?_, ?_, ?_⟩
    · simp [markProcessingTry, hd']
    · simpa [entry] using hsrc
    · simpa [entry] using htgt
    · simp [markProcessingTry, rename, hsrc]

/-- C1, as stated, fails in its last part: on the mailbox that holds `abc.json`, the
second of two claim attempts loses (its rename step fails with `ENOENT`), yet its call
resolves with the same value as the call of the winner; it receives no failure, so no
AlreadyClaimed. -/
theorem markProcessing_loser_receives_nothing :
    (entry abcMailbox.pending (pendingName "abc")).isSome = true ∧
    markProcessingTry "abc" (markProcessing "abc" abcMailbox).1 = .error Err.ENOENT ∧
    (markProcessing "abc" (markProcessing "abc" abcMailbox).1).2 = .ok () ∧
    (markProcessing "abc" (markProcessing "abc" abcMailbox).1).2 =
      (markProcessing "abc" abcMailbox).2 := by
  refine ⟨by decide, rfl, rfl, rfl⟩

/-- C1, amended: with the mailbox a map from file names to contents and every attempt
one atomic rename step, two claim attempts on the same id, run one after the other on
a store that holds `<id>.json`, go as follows: the first performs the rename and is
the only one to do so; the rename step of the second fails because the source is gone
(`ENOENT`), which `markProcessing` catches and writes to the console, leaving the
store as the first attempt left it; and both calls resolve with no value, so the
losing attempt is handed no failure.  The two attempts are the same call, so this run
is either order of the two. -/
theorem markProcessing_race_exactly_one (messageId : String) (w : World) (node : Node)
    (h : entry w.pending (pendingName messageId) = some node) :
    ∃ w1 : World,
      markProcessingTry messageId w = .ok w1 ∧
      (markProcessing messageId w).1 = w1 ∧
      entry w1.pending (pendingName messageId) = none ∧
      entry w1.pending (processingName messageId) = some node ∧
      markProcessingTry messageId w1 = .error Err.ENOENT ∧
      (markProcessing messageId w1).1.pending = w1.pending ∧
      (markProcessing messageId w1).1.responses = w1.responses ∧
      (markProcessing messageId w1).1.trace = w1.trace ++
        [Effect.consoleError "[Claude Brain] Error marking message as processing:"
          Err.ENOENT] ∧
      (markProcessing messageId w).2 = .ok () ∧
      (markProcessing messageId w1).2 = .ok () := by
  obtain ⟨w1, h1, -, -, h3, h4, h5⟩ := markProcessingTry_present messageId w node h
  refine ⟨w1, h1, ?_, h3, h4, h5, ?_, ?_, ?_, ?_, ?_⟩ <;> simp [markProcessing, h1, h5]

/-- C1, amended, at the mailbox that holds only `abc.json`. -/
theorem markProcessing_race_exactly_one_witness :
    entry abcMailbox.pending (pendingName "abc") = some (Node.text abcText) ∧
    ∃ w1 : World,
      markProcessingTry "abc" abcMailbox = .ok w1 ∧
      (markProcessing "abc" abcMailbox).1 = w1 ∧
      entry w1.pending (pendingName "abc") = none ∧
      entry w1.pending (processingName "abc") = some (Node.text abcText) ∧
      markProcessingTry "abc" w1 = .error Err.ENOENT ∧
      (markProcessing "abc" w1).1.pending = w1.pending ∧
      (markProcessing "abc" w1).1.responses = w1.responses ∧
      (markProcessing "abc" w1).1.trace = w1.trace ++
        [Effect.consoleError "[Claude Brain] Error marking message as processing:"
          Err.ENOENT] ∧
      (markProcessing "abc" abcMailbox).2 = .ok () ∧
      (markProcessing "abc" w1).2 = .ok () :=
  ⟨by decide, markProcessing_race_exactly_one "abc" abcMailbox (Node.text abcText) (by decide)⟩

/-- C2, as stated, fails: on a store without `abc.json` the call resolves with the
same value as on a store with it, so the caller is handed no failure to tell a lost
claim from a successful one. -/
theorem markProcessing_lost_claim_resolves :
    entry emptyMailbox.pending (pendingName "abc") = none ∧
    (entry abcMailbox.pending (pendingName "abc")).isSome = true ∧
    (markProcessing "abc" emptyMailbox).2 = .ok () ∧
    (markProcessing "abc" emptyMailbox).2 = (markProcessing "abc" abcMailbox).2 := by
  refine ⟨by decide, by decide, rfl, rfl⟩

/-- C2, amended: `markProcessing` always resolves with no value.  When `<id>.json`
exists the rename is performed (the source name is gone, the marker holds what the
source held, nothing is logged); when it does not exist the store is left as it was
and the rename error is only written to the console. -/
theorem markProcessing_always_resolves (messageId : String) (w : World) :
    (markProcessing messageId w).2 = .ok () ∧
    (∀ node, entry w.pending (pendingName messageId) = some node →
      entry (markProcessing messageId w).1.pending (pendingName messageId) = none ∧
      entry (markProcessing messageId w).1.pending (processingName messageId) = some node ∧
      (markProcessing messageId w).1.trace = w.trace) ∧
    (entry w.pending (pendingName messageId) = none →
      (markProcessing messageId w).1.pending = w.pending ∧
      (markProcessing messageId w).1.responses = w.responses ∧
      ∃ e, (markProcessing messageId w).1.trace = w.trace ++
        [Effect.consoleError "[Claude Brain] Error marking message as processing:" e]) := by
  refine ⟨?_, ?_, ?_⟩
  · unfold markProcessing
    cases markProcessingTry messageId w <;> rfl
  · intro node h
    obtain ⟨w1, h1, -, h2, h3, h4, -⟩ := markProcessingTry_present messageId w node h
    have hw : (markProcessing messageId w).1 = w1 := by simp [markProcessing, h1]
    rw [hw]
    exact ⟨h3, h4, h2⟩
  · intro h
    obtain ⟨p, r, t⟩ := w
    cases p with
    | absent => exact ⟨rfl, rfl, Err.ENOENT, rfl⟩
    | blocked => exact ⟨rfl, rfl, Err.EACCES, rfl⟩
    | present d =>
      simp only [entry] at h
      refine ⟨?_, ?_, Err.ENOENT, ?_⟩ <;>
        simp [markProcessing, markProcessingTry, rename, h]

/-! ## Releasing a claim: `cleanupMessage` -/

/-- C5: `cleanupMessage` never fails; it leaves the world as it is when no claim
marker `.processing-<id>.json` is present; after it the marker is absent; and a
second call in a row changes nothing, so twice is the same as once. -/
theorem cleanupMessage_idempotent (messageId : String) (w : World) :
    (cleanupMessage messageId w).2 = .ok () ∧
    (entry w.pending (processingName messageId) = none → (cleanupMessage messageId w).1 = w) ∧
    entry (cleanupMessage messageId w).1.pending (processingName messageId) = none ∧
    (cleanupMessage messageId (cleanupMessage messageId w).1).1 =
      (cleanupMessage messageId w).1 := by
  obtain ⟨p, r, t⟩ := w
  cases p with
  | absent => exact ⟨rfl, fun _ => rfl, rfl, rfl⟩
  | blocked => exact ⟨rfl, fun _ => rfl, rfl, rfl⟩
  | present d =>
    cases hl : d.lookup (processingName messageId) with
    | none =>
      refine ⟨?_, ?_, ?_, ?_⟩ <;> simp [cleanupMessage, unlink, hl, entry]
    | some node =>
      have hgone : (d.filter (fun e => e.1 != processingName messageId)).lookup
          (processingName messageId) = none := by
        simp [lookup_without]
      refine ⟨?_, ?_, ?_, ?_⟩
      · simp [cleanupMessage, unlink, hl]
      · intro h; simp [entry, hl] at h
      · simp [cleanupMessage, unlink, hl, entry, hgone]
      · simp [cleanupMessage, unlink, hl, hgone]

/-! ## Listing the mailbox: `getPendingMessages` -/

theorem lookup_of_mem_nodup (d : Dir) (hd : (d.map Prod.fst).Nodup) (e : String × Node)
    (he : e ∈ d) : d.lookup e.1 = some e.2 := by
  induction d with
  | nil => simp at he
  | cons x rest ih =>
    obtain ⟨k, v⟩ := x
    simp only [List.map_cons, List.nodup_cons] at hd
    rcases List.mem_cons.mp he with h | h
    · subst h; simp [List.lookup]
    · have hne : e.1 ≠ k := by
        intro hk
        exact hd.1 (hk ▸ List.mem_map_of_mem Prod.fst h)
      have hb : (e.1 == k) = false := by simpa using hne
      simp [List.lookup, hb, ih hd.2 h]

theorem readdir_filter_eq (d : Dir) :
    (d.map Prod.fst).filter isPendingFile = (unclaimed d).map Prod.fst := by
  induction d with
  | nil => rfl
  | cons x rest ih =>
    by_cases hx : isPendingFile x.1 <;> simp [unclaimed, List.filter, hx] at ih ⊢ <;> exact ih

/-- When every listed entry can be read and parsed, the loop returns their records in
listing order. -/
theorem readMessages_ok (H : Host) (d : Dir) (l : Dir)
    (hl : ∀ e ∈ l, d.lookup e.1 = some e.2)
    (hok : ∀ e ∈ l, (recordOf H e).isSome = true) :
    readMessages H (.present d) (l.map Prod.fst) = .ok (l.filterMap (recordOf H)) := by
  induction l with
  | nil => rfl
  | cons x rest ih =>
    obtain ⟨k, v⟩ := x
    have hx := hl (k, v) (List.mem_cons_self _ _)
    have hr := hok (k, v) (List.mem_cons_self _ _)
    have ih' := ih (fun e he => hl e (List.mem_cons_of_mem _ he))
      (fun e he => hok e (List.mem_cons_of_mem _ he))
    simp only at hx
    cases v with
    | locked => simp [recordOf] at hr
    | text c =>
      cases hp : H.parse c with
      | none => simp [recordOf, hp] at hr
      | some data =>
        simp [readMessages, readFile, hx, hp, ih', recordOf, List.filterMap_cons]

theorem sort_perm {α : Type} (cmp : α → α → Int) (xs : List α) : (sort cmp xs).Perm xs :=
  List.perm_insertionSort _ xs

theorem mem_sort {α : Type} (cmp : α → α → Int) (xs : List α) (x : α) :
    x ∈ sort cmp xs ↔ x ∈ xs :=
  (sort_perm cmp xs).mem_iff

/-- Inserting into a sorted list keeps it sorted when the relation is total and
transitive on the elements at hand. -/
theorem orderedInsert_sorted_on {α : Type} (r : α → α → Prop) [DecidableRel r] (P : α → Prop)
    (htot : ∀ a b, P a → P b → r a b ∨ r b a)
    (htr : ∀ a b c, P a → P b → P c → r a b → r b c → r a c)
    (a : α) (ha : P a) (l : List α) (hl : ∀ x ∈ l, P x) (hs : l.Sorted r) :
    (l.orderedInsert r a).Sorted r := by
  induction l with
  | nil => simp
  | cons b t ih =>
    have hb : P b := hl b (List.mem_cons_self _ _)
    have ht : ∀ x ∈ t, P x := fun x hx => hl x (List.mem_cons_of_mem _ hx)
    have hbt := List.sorted_cons.mp hs
    by_cases hab : r a b
    · simp only [List.orderedInsert, hab, if_true]
      refine List.sorted_cons.mpr ⟨?_, hs⟩
      intro x hx
      rcases List.mem_cons.mp hx with h | h
      · subst h; exact hab
      · exact htr a b x ha hb (ht x h) hab (hbt.1 x h)
    · simp only [List.orderedInsert, hab, if_false]
      refine List.sorted_cons.mpr ⟨?_, ih ht hbt.2⟩
      intro x hx
      rcases (List.mem_orderedInsert r).mp hx with h | h
      · subst h
        rcases htot x b ha hb with h1 | h1
        · exact absurd h1 hab
        · exact h1
      · exact hbt.1 x h

theorem insertionSort_sorted_on {α : Type} (r : α → α → Prop) [DecidableRel r] (P : α → Prop)
    (htot : ∀ a b, P a → P b → r a b ∨ r b a)
    (htr : ∀ a b c, P a → P b → P c → r a b → r b c → r a c)
    (l : List α) (hl : ∀ x ∈ l, P x) : (l.insertionSort r).Sorted r := by
  induction l with
  | nil => simp
  | cons a t ih =>
    have ht : ∀ x ∈ t, P x := fun x hx => hl x (List.mem_cons_of_mem _ hx)
    simp only [List.insertionSort]
    exact orderedInsert_sorted_on r P htot htr a (hl a (List.mem_cons_self _ _)) _
      (fun x hx => ht x ((List.mem_insertionSort r).mp hx)) (ih ht)

theorem timestampOf_of_int (H : Host) (m : Obj) (n : Int) (h : intTimestamp m = some n) :
    timestampOf H m = some n := by
  unfold intTimestamp at h
  unfold timestampOf
  cases hg : m.get "timestamp" with
  | none => simp [hg] at h
  | some v => cases v <;> simp_all

/-- On records that all carry an integer timestamp, `sort` with the comparator of
line 42 returns them with non-decreasing timestamps. -/
theorem sort_compareFn_sorted (H : Host) (ms : List Obj)
    (hms : ∀ m ∈ ms, (intTimestamp m).isSome = true) :
    (sort (compareFn H) ms).Pairwise
      (fun a b => ∃ x y, intTimestamp a = some x ∧ intTimestamp b = some y ∧ x ≤ y) := by
  have key : ∀ a b : Obj, ∀ x y, intTimestamp a = some x → intTimestamp b = some y →
      (compareFn H a b ≤ 0 ↔ x ≤ y) := by
    intro a b x y ha hb
    simp [compareFn, timestampOf_of_int H a x ha, timestampOf_of_int H b y hb]
  have hs := insertionSort_sorted_on (fun a b => compareFn H a b ≤ 0)
    (fun m => (intTimestamp m).isSome = true)
    (by
      intro a b ha hb
      obtain ⟨x, hx⟩ := Option.isSome_iff_exists.mp ha
      obtain ⟨y, hy⟩ := Option.isSome_iff_exists.mp hb
      rcases le_total x y with h | h
      · exact Or.inl ((key a b x y hx hy).mpr h)
      · exact Or.inr ((key b a y x hy hx).mpr h))
    (by
      intro a b c ha hb hc hab hbc
      obtain ⟨x, hx⟩ := Option.isSome_iff_exists.mp ha
      obtain ⟨y, hy⟩ := Option.isSome_iff_exists.mp hb
      obtain ⟨z, hz⟩ := Option.isSome_iff_exists.mp hc
      exact (key a c x z hx hz).mpr
        (le_trans ((key a b x y hx hy).mp hab) ((key b c y z hy hz).mp hbc)))
    ms hms
  refine List.Pairwise.imp_of_mem ?_ hs
  intro a b ha hb hab
  obtain ⟨x, hx⟩ := Option.isSome_iff_exists.mp (hms a ((mem_sort _ _ _).mp ha))
  obtain ⟨y, hy⟩ := Option.isSome_iff_exists.mp (hms b ((mem_sort _ _ _).mp hb))
  exact ⟨x, y, hx, hy, (key a b x y hx hy).mp hab⟩

/-- What the listing resolves with on a directory whose unclaimed files can all be
read and parsed: their records, sorted. -/
theorem getPendingMessages_present (H : Host) (w : World) (d : Dir)
    (hw : w.pending = .present d) (hd : (d.map Prod.fst).Nodup)
    (hok : ∀ e ∈ unclaimed d, (recordOf H e).isSome = true) :
    getPendingMessages H w =
      (w, .ok (sort (compareFn H) ((unclaimed d).filterMap (recordOf H)))) := by
  have hr := readMessages_ok H d (unclaimed d)
    (fun e he => lookup_of_mem_nodup d hd e (List.mem_of_mem_filter he)) hok
  obtain ⟨p, r, t⟩ := w
  simp only at hw
  subst hw
  simp [getPendingMessages, getPendingMessagesTry, mkdirp, readdir, readdir_filter_eq, hr]

/-- C3: on every mailbox whose unclaimed `.json` files all parse and carry an integer
timestamp (a directory holding one entry per name), `getPendingMessages` resolves with
a permutation of exactly the records of those files, ordered so that timestamps are
non-decreasing; and on requests `A`, `B`, `C` with timestamps 300, 100, 200 it
returns the order `B`, `C`, `A`. -/
theorem getPendingMessages_sorted_permutation (H : Host) (w : World)
    (hnodup : ((files w.pending).map Prod.fst).Nodup)
    (hok : ∀ e ∈ unclaimed (files w.pending),
      ((recordOf H e).bind intTimestamp).isSome = true) :
    (∃ ms, (getPendingMessages H w).2 = .ok ms ∧
      ms.Perm ((unclaimed (files w.pending)).filterMap (recordOf H)) ∧
      ms.Pairwise
        (fun a b => ∃ x y, intTimestamp a = some x ∧ intTimestamp b = some y ∧ x ≤ y)) ∧
    listedIds demoHost orderMailbox = [some "B", some "C", some "A"] := by
  refine ⟨?_, by decide⟩
  obtain ⟨p, r, t⟩ := w
  cases p with
  | absent => exact ⟨[], rfl, List.Perm.refl _, List.Pairwise.nil⟩
  | blocked => exact ⟨[], rfl, List.Perm.refl _, List.Pairwise.nil⟩
  | present d =>
    simp only [files] at hnodup hok
    have hrec : ∀ e ∈ unclaimed d, (recordOf H e).isSome = true := by
      intro e he
      have := hok e he
      cases hr : recordOf H e with
      | none => simp [hr] at this
      | some m => rfl
    have hts : ∀ m ∈ (unclaimed d).filterMap (recordOf H), (intTimestamp m).isSome = true := by
      intro m hm
      obtain ⟨e, he, hem⟩ := List.mem_filterMap.mp hm
      have := hok e he
      simpa [hem] using this
    refine ⟨sort (compareFn H) ((unclaimed d).filterMap (recordOf H)), ?_, ?_, ?_⟩
    · rw [getPendingMessages_present H _ d rfl hnodup hrec]
    · exact sort_perm _ _
    · exact sort_compareFn_sorted H _ hts

/-- C3 at the mailbox of the ordering example. -/
theorem getPendingMessages_sorted_permutation_witness :
    ((files orderMailbox.pending).map Prod.fst).Nodup ∧
    (∀ e ∈ unclaimed (files orderMailbox.pending),
      ((recordOf demoHost e).bind intTimestamp).isSome = true) ∧
    (∃ ms, (getPendingMessages demoHost orderMailbox).2 = .ok ms ∧
      ms.Perm ((unclaimed (files orderMailbox.pending)).filterMap (recordOf demoHost)) ∧
      ms.Pairwise
        (fun a b => ∃ x y, intTimestamp a = some x ∧ intTimestamp b = some y ∧ x ≤ y)) ∧
    listedIds demoHost orderMailbox = [some "B", some "C", some "A"] :=
  ⟨by decide, by decide,
    getPendingMessages_sorted_permutation demoHost orderMailbox (by decide) (by decide)⟩

/-! ## The listing after a claim -/

theorem endsWith_json_eq (f : String) (h : endsWith f ".json" = true) :
    f = pendingName (stem f) := by
  unfold endsWith at h
  rw [List.isSuffixOf_iff_suffix] at h
  obtain ⟨t, ht⟩ := h
  apply String.ext
  simp only [pendingName, stem]
  rw [String.data_append, ← ht]
  simp

theorem stem_pendingName (messageId : String) : stem (pendingName messageId) = messageId := by
  apply String.ext
  simp [stem, pendingName]

theorem processingName_not_pending (messageId : String) :
    isPendingFile (processingName messageId) = false := by
  have h : startsWith (processingName messageId) ".processing" = true := by
    unfold startsWith processingName
    rw [List.isPrefixOf_iff_prefix]
    simp [String.data_append, List.append_assoc]
  simp [isPendingFile, h]

/-- The loop fails as soon as one listed entry cannot be read or parsed. -/
theorem readMessages_error (H : Host) (d : Dir) (l : Dir)
    (hl : ∀ e ∈ l, d.lookup e.1 = some e.2)
    (hbad : ∃ e ∈ l, (recordOf H e).isSome = false) :
    ∃ err, readMessages H (.present d) (l.map Prod.fst) = .error err := by
  induction l with
  | nil => obtain ⟨e, he, -⟩ := hbad; simp at he
  | cons x rest ih =>
    obtain ⟨k, v⟩ := x
    have hx := hl (k, v) (List.mem_cons_self _ _)
    simp only at hx
    cases v with
    | locked => exact ⟨Err.EACCES, by simp [readMessages, readFile, hx]⟩
    | text c =>
      cases hp : H.parse c with
      | none => exact ⟨Err.SyntaxError, by simp [readMessages, readFile, hx, hp]⟩
      | some data =>
        have hrest : ∃ e ∈ rest, (recordOf H e).isSome = false := by
          obtain ⟨e, he, hb⟩ := hbad
          rcases List.mem_cons.mp he with h | h
          · subst h; simp [recordOf, hp] at hb
          · exact ⟨e, h, hb⟩
        obtain ⟨err, herr⟩ := ih (fun e he => hl e (List.mem_cons_of_mem _ he)) hrest
        exact ⟨err, by simp [readMessages, readFile, hx, hp, herr]⟩

/-- The listing of a directory that exists: the sorted records of its unclaimed files
when all of them can be read and parsed, nothing otherwise. -/
theorem listed_present (H : Host) (w : World) (d : Dir)
    (hw : w.pending = .present d) (hd : (d.map Prod.fst).Nodup) :
    listed H w =
      if ∀ e ∈ unclaimed d, (recordOf H e).isSome = true then
        sort (compareFn H) ((unclaimed d).filterMap (recordOf H))
      else [] := by
  by_cases hall : ∀ e ∈ unclaimed d, (recordOf H e).isSome = true
  · rw [if_pos hall]
    simp [listed, getPendingMessages_present H w d hw hd hall]
  · rw [if_neg hall]
    have hbad : ∃ e ∈ unclaimed d, (recordOf H e).isSome = false := by
      by_contra hcon
      apply hall
      intro e he
      by_contra hne
      exact hcon ⟨e, he, by simpa using hne⟩
    obtain ⟨err, herr⟩ := readMessages_error H d (unclaimed d)
      (fun e he => lookup_of_mem_nodup d hd e (List.mem_of_mem_filter he)) hbad
    obtain ⟨p, r, t⟩ := w
    simp only at hw
    subst hw
    simp [listed, getPendingMessages, getPendingMessagesTry, mkdirp, readdir,
      readdir_filter_eq, herr]

theorem mem_listed_present (H : Host) (w : World) (d : Dir)
    (hw : w.pending = .present d) (hd : (d.map Prod.fst).Nodup) (m : Obj) :
    m ∈ listed H w ↔
      (∀ e ∈ unclaimed d, (recordOf H e).isSome = true) ∧
      ∃ e ∈ unclaimed d, recordOf H e = some m := by
  rw [listed_present H w d hw hd]
  by_cases hall : ∀ e ∈ unclaimed d, (recordOf H e).isSome = true
  · rw [if_pos hall, mem_sort, List.mem_filterMap]
    exact ⟨fun h => ⟨hall, h⟩, fun h => h.2⟩
  · rw [if_neg hall]
    exact ⟨fun h => absurd h (List.not_mem_nil _), fun h => absurd h.1 hall⟩

/-- The pending directory after a claim that found its source. -/
theorem markProcessing_pending (messageId : String) (w : World) (d : Dir) (node : Node)
    (hw : w.pending = .present d) (h : d.lookup (pendingName messageId) = some node) :
    (markProcessing messageId w).1.pending =
      .present (d.filter (fun e => e.1 != pendingName messageId &&
        e.1 != processingName messageId) ++ [(processingName messageId, node)]) := by
  simp [markProcessing, markProcessingTry, rename, hw, h, pendingName_ne_processingName]

theorem nodup_after_rename (d : Dir) (src tgt : String) (node : Node)
    (hd : (d.map Prod.fst).Nodup) :
    ((d.filter (fun e => e.1 != src && e.1 != tgt) ++ [(tgt, node)]).map Prod.fst).Nodup := by
  rw [List.map_append, List.nodup_append]
  refine ⟨(List.filter_sublist d).map Prod.fst |>.nodup hd, by simp, ?_⟩
  intro a ha hb
  simp only [List.map_cons, List.map_nil, List.mem_singleton] at hb
  subst hb
  obtain ⟨e, he, rfl⟩ := List.mem_map.mp ha
  have := (List.mem_filter.mp he).2
  simp at this

theorem unclaimed_after_rename (d : Dir) (messageId : String) (node : Node) :
    unclaimed (d.filter (fun e => e.1 != pendingName messageId &&
        e.1 != processingName messageId) ++ [(processingName messageId, node)]) =
      (unclaimed d).filter (fun e => e.1 != pendingName messageId) := by
  simp only [unclaimed, List.filter_append, List.filter_filter]
  have h1 : List.filter (fun e : String × Node => isPendingFile e.1)
      [(processingName messageId, node)] = [] := by
    simp [List.filter, processingName_not_pending]
  rw [h1, List.append_nil]
  apply List.filter_congr
  intro e _
  by_cases hp : isPendingFile e.1
  · have hne : e.1 ≠ processingName messageId := by
      intro heq
      rw [heq, processingName_not_pending] at hp
      exact Bool.false_ne_true hp
    simp [hp, hne]
  · simp [hp]

/-- C4, as stated, fails: `aliasMailbox` holds `abc.json` and a file `other.json`
whose content carries `"id":"abc"`; the spread of line 38 lets the content set the
id of the record, so after `markProcessing("abc")` the listing still has an entry
with id `abc`. -/
theorem getPendingMessages_lists_claimed_id :
    (entry aliasMailbox.pending (pendingName "abc")).isSome = true ∧
    listedIds demoHost (markProcessing "abc" aliasMailbox).1 = [some "abc"] := by
  decide

/-- C4, amended: in a mailbox (one entry per name) where every unclaimed record
carries as its id the stem of its file name, and for an id whose `<id>.json` exists:
after `markProcessing(id)` the listing has no entry with that id, and every entry
with another id that was listed before the claim is still listed. -/
theorem getPendingMessages_excludes_claimed (H : Host) (w : World) (messageId : String)
    (node : Node)
    (hnodup : ((files w.pending).map Prod.fst).Nodup)
    (hkey : ∀ e ∈ unclaimed (files w.pending), ∀ m ∈ recordOf H e, idOf m = some (stem e.1))
    (hsrc : entry w.pending (pendingName messageId) = some node) :
    (∀ m ∈ listed H (markProcessing messageId w).1, idOf m ≠ some messageId) ∧
    (∀ m ∈ listed H w, idOf m ≠ some messageId →
      m ∈ listed H (markProcessing messageId w).1) := by
  obtain ⟨p, r, t⟩ := w
  cases p with
  | absent => simp [entry] at hsrc
  | blocked => simp [entry] at hsrc
  | present d =>
    simp only [files] at hnodup hkey
    simp only [entry] at hsrc
    have hp := markProcessing_pending messageId ⟨.present d, r, t⟩ d node rfl hsrc
    have hn := nodup_after_rename d (pendingName messageId) (processingName messageId) node hnodup
    have hu := unclaimed_after_rename d messageId node
    constructor
    · intro m hm
      rw [mem_listed_present H _ _ hp hn, hu] at hm
      obtain ⟨-, e, he, hem⟩ := hm
      obtain ⟨he1, he2⟩ := List.mem_filter.mp he
      have hid := hkey e he1 m hem
      rw [hid]
      intro hcon
      have hstem : stem e.1 = messageId := Option.some.inj hcon
      have hends : endsWith e.1 ".json" = true := by
        have := (List.mem_filter.mp he1).2
        simp [isPendingFile] at this
        exact this.1
      have := endsWith_json_eq e.1 hends
      rw [hstem] at this
      simp [this] at he2
    · intro m hm hne
      rw [mem_listed_present H _ d rfl hnodup] at hm
      obtain ⟨hall, e, he, hem⟩ := hm
      rw [mem_listed_present H _ _ hp hn, hu]
      have hne' : e.1 ≠ pendingName messageId := by
        intro heq
        apply hne
        rw [hkey e he m hem, heq, stem_pendingName]
      refine ⟨fun e' he' => hall e' (List.mem_of_mem_filter he'), e, ?_, hem⟩
      exact List.mem_filter.mpr ⟨he, by simpa using hne'⟩

/-- C4, amended, at the mailbox of the ordering example and the claim of `B`. -/
theorem getPendingMessages_excludes_claimed_witness :
    ((files orderMailbox.pending).map Prod.fst).Nodup ∧
    (∀ e ∈ unclaimed (files orderMailbox.pending),
      ∀ m ∈ recordOf demoHost e, idOf m = some (stem e.1)) ∧
    entry orderMailbox.pending (pendingName "B") = some (Node.text (stampText 100)) ∧
    listedIds demoHost orderMailbox = [some "B", some "C", some "A"] ∧
    listedIds demoHost (markProcessing "B" orderMailbox).1 = [some "C", some "A"] ∧
    (∀ m ∈ listed demoHost (markProcessing "B" orderMailbox).1, idOf m ≠ some "B") ∧
    (∀ m ∈ listed demoHost orderMailbox, idOf m ≠ some "B" →
      m ∈ listed demoHost (markProcessing "B" orderMailbox).1) :=
  ⟨by decide, by decide, by decide, by decide, by decide,
    getPendingMessages_excludes_claimed demoHost orderMailbox "B" (Node.text (stampText 100))
      (by decide) (by decide) (by decide)⟩

/-! ## Persisting and delivering a response: `sendResponse` -/

theorem lookup_map_overwrite (d : Dir) (name : String) (node : Node)
    (h : (d.lookup name).isSome = true) :
    (d.map (fun e => if e.1 = name then (name, node) else e)).lookup name = some node := by
  induction d with
  | nil => simp at h
  | cons x rest ih =>
    obtain ⟨k, v⟩ := x
    by_cases hk : k = name
    · subst hk
      simp only [List.map_cons, if_true]
      simp [List.lookup]
    · have hb : (name == k) = false := by simpa using fun h' : name = k => hk h'.symm
      simp only [List.lookup, hb] at h
      simp only [List.map_cons, if_neg hk]
      simp only [List.lookup, hb]
      exact ih h

/-- A file that was written reads back as written. -/
theorem readFile_writeFile (d d1 : DirState) (name content : String)
    (h : writeFile d name content = .ok d1) : readFile d1 name = .ok content := by
  cases d with
  | absent => simp [writeFile] at h
  | blocked => simp [writeFile] at h
  | present es =>
    simp only [writeFile] at h
    cases hl : es.lookup name with
    | none =>
      simp only [hl] at h
      injection h with h
      subst h
      simp [readFile, lookup_append_dir, hl, List.lookup]
    | some node =>
      cases node with
      | locked => simp [hl] at h
      | text c =>
        simp only [hl] at h
        injection h with h
        subst h
        simp [readFile, lookup_map_overwrite es name (Node.text content) (by simp [hl])]

/-- A successful persist step: the record is written and nothing else is done. -/
theorem persist_ok (H : Host) (requestId response : String) (metadata : Obj) (w w1 : World)
    (h : persist H requestId response metadata w = (w1, .ok ())) :
    readFile w1.responses (responseName requestId) =
        .ok (responseText H requestId response metadata) ∧
      w1.pending = w.pending ∧ w1.trace = w.trace := by
  unfold persist at h
  cases hm : mkdirp w.responses with
  | error e => simp [hm] at h
  | ok d =>
    simp only [hm] at h
    cases hwf : writeFile d (responseName requestId)
        (responseText H requestId response metadata) with
    | error e => simp [hwf] at h
    | ok d1 =>
      simp only [hwf] at h
      injection h with h _
      subst h
      exact ⟨readFile_writeFile d d1 _ _ hwf, rfl, rfl⟩

/-- The deliver step leaves the store alone. -/
theorem deliver_store (H : Host) (requestId response : String) (metadata : Obj) (w : World) :
    (deliver H requestId response metadata w).1.responses = w.responses ∧
    (deliver H requestId response metadata w).1.pending = w.pending := by
  unfold deliver
  cases H.dial (WS_URL H) <;> exact ⟨rfl, rfl⟩

/-- C6: once `sendResponse(requestId, response, metadata)` has completed its write,
the record stored as `resp-<requestId>.json` parses (on a host whose `JSON.parse`
reads back what `JSON.stringify` printed for this record) to a record whose
requestId, response and metadata are the arguments and whose source is
`claude-code`, whatever the delivery then does. -/
theorem sendResponse_round_trip (H : Host) (requestId response : String) (metadata : Obj)
    (w w1 : World)
    (hwrite : persist H requestId response metadata w = (w1, .ok ()))
    (hcodec : H.parse (H.stringify (Json.obj (responseData H requestId response metadata)) 2) =
      some (Json.obj (responseData H requestId response metadata))) :
    ∃ (text : String) (record : Obj),
      readFile (sendResponse H requestId response metadata w).1.responses
        (responseName requestId) = .ok text ∧
      H.parse text = some (Json.obj record) ∧
      record.get "requestId" = some (Json.str requestId) ∧
      record.get "response" = some (Json.str response) ∧
      record.get "metadata" = some (Json.obj metadata) ∧
      record.get "source" = some (Json.str "claude-code") := by
  have hp := persist_ok H requestId response metadata w w1 hwrite
  refine ⟨responseText H requestId response metadata,
    responseData H requestId response metadata, ?_, hcodec, rfl, rfl, rfl, rfl⟩
  simp only [sendResponse, hwrite]
  rw [(deliver_store H requestId response metadata w1).1]
  exact hp.1

/-- C6 at the example of the specification: persisting `r1` with response `hello`
reads back `hello`. -/
theorem sendResponse_round_trip_witness :
    persist demoHost "r1" "hello" [] emptyMailbox =
      (⟨.present [], .present [("resp-r1.json",
          Node.text (responseText demoHost "r1" "hello" []))], []⟩, .ok ()) ∧
    demoHost.parse (demoHost.stringify (Json.obj (responseData demoHost "r1" "hello" [])) 2) =
      some (Json.obj (responseData demoHost "r1" "hello" [])) ∧
    ∃ (text : String) (record : Obj),
      readFile (sendResponse demoHost "r1" "hello" [] emptyMailbox).1.responses
        (responseName "r1") = .ok text ∧
      demoHost.parse text = some (Json.obj record) ∧
      record.get "requestId" = some (Json.str "r1") ∧
      record.get "response" = some (Json.str "hello") ∧
      record.get "metadata" = some (Json.obj []) ∧
      record.get "source" = some (Json.str "claude-code") :=
  ⟨rfl, rfl, sendResponse_round_trip demoHost "r1" "hello" [] emptyMailbox _ rfl rfl⟩

/-- C7: when the write of `sendResponse` succeeds, leaving the world `w1`, the
record is in the response store in `w1` and nothing has been done on the channel
yet; the connection is opened from `w1` (the rest of the call is the deliver step on
`w1`, whose first action is the connect); and when the connection then fails,
`sendResponse` is rejected with that error while the record of the request is still
there, readable with the text that was written. -/
theorem sendResponse_persist_before_deliver (H : Host) (requestId response : String)
    (metadata : Obj) (w w1 : World)
    (hwrite : persist H requestId response metadata w = (w1, .ok ())) :
    readFile w1.responses (responseName requestId) =
      .ok (responseText H requestId response metadata) ∧
    w1.trace = w.trace ∧
    sendResponse H requestId response metadata w = deliver H requestId response metadata w1 ∧
    (∃ rest, (sendResponse H requestId response metadata w).1.trace =
      w.trace ++ Effect.connect (WS_URL H) :: rest) ∧
    (∀ e, H.dial (WS_URL H) = some e →
      (sendResponse H requestId response metadata w).2 = .error e ∧
      readFile (sendResponse H requestId response metadata w).1.responses
        (responseName requestId) = .ok (responseText H requestId response metadata)) := by
  have hp := persist_ok H requestId response metadata w w1 hwrite
  have hs : sendResponse H requestId response metadata w =
      deliver H requestId response metadata w1 := by
    simp only [sendResponse, hwrite]
  refine ⟨hp.1, hp.2.2, hs, ?_, ?_⟩
  · rw [hs]
    unfold deliver
    cases H.dial (WS_URL H) with
    | none =>
      exact ⟨[Effect.send (H.stringify (Json.obj (frame requestId response metadata)) 0),
        Effect.close], by simp [hp.2.2]⟩
    | some e =>
      exact ⟨[Effect.consoleError "[Claude Brain] WebSocket error:" e], by simp [hp.2.2]⟩
  · intro e he
    rw [hs]
    refine ⟨by simp [deliver, he], ?_⟩
    rw [(deliver_store H requestId response metadata w1).1]
    exact hp.1

/-- C7 at the example of the specification: the relay refuses the connection after
the record of `r2` was written. -/
theorem sendResponse_persist_before_deliver_witness :
    persist offlineHost "r2" "hello" [] emptyMailbox =
      (⟨.present [], .present [("resp-r2.json",
          Node.text (responseText offlineHost "r2" "hello" []))], []⟩, .ok ()) ∧
    (sendResponse offlineHost "r2" "hello" [] emptyMailbox).2 =
      .error (Err.ws "ECONNREFUSED") ∧
    readFile (sendResponse offlineHost "r2" "hello" [] emptyMailbox).1.responses
        (responseName "r2") = .ok (responseText offlineHost "r2" "hello" []) :=
  ⟨rfl,
    ((sendResponse_persist_before_deliver offlineHost "r2" "hello" [] emptyMailbox _ rfl).2.2.2.2
      (Err.ws "ECONNREFUSED") rfl).1,
    ((sendResponse_persist_before_deliver offlineHost "r2" "hello" [] emptyMailbox _ rfl).2.2.2.2
      (Err.ws "ECONNREFUSED") rfl).2⟩

/-- C8: when the write succeeds and the connection opens, the actions of
`sendResponse` on the channel are, after the connect, exactly one send of the text
of the object `{type: "chat_response", requestId, message: response, metadata,
source: "claude-code"}` followed by one close, and the call resolves; the message,
requestId, metadata and source of that frame are the response, requestId, metadata
and source of the record the same call has persisted. -/
theorem sendResponse_channel_actions (H : Host) (requestId response : String)
    (metadata : Obj) (w w1 : World)
    (hwrite : persist H requestId response metadata w = (w1, .ok ()))
    (hopen : H.dial (WS_URL H) = none) :
    (sendResponse H requestId response metadata w).1.trace =
      w.trace ++ [Effect.connect (WS_URL H),
        Effect.send (H.stringify (Json.obj (frame requestId response metadata)) 0),
        Effect.close] ∧
    (sendResponse H requestId response metadata w).2 = .ok () ∧
    frame requestId response metadata =
      [("type", Json.str "chat_response"), ("requestId", Json.str requestId),
       ("message", Json.str response), ("metadata", Json.obj metadata),
       ("source", Json.str "claude-code")] ∧
    readFile (sendResponse H requestId response metadata w).1.responses
      (responseName requestId) =
        .ok (H.stringify (Json.obj (responseData H requestId response metadata)) 2) ∧
    (frame requestId response metadata).get "message" =
      (responseData H requestId response metadata).get "response" ∧
    (frame requestId response metadata).get "requestId" =
      (responseData H requestId response metadata).get "requestId" ∧
    (frame requestId response metadata).get "metadata" =
      (responseData H requestId response metadata).get "metadata" ∧
    (frame requestId response metadata).get "source" =
      (responseData H requestId response metadata).get "source" := by
  have hp := persist_ok H requestId response metadata w w1 hwrite
  have hs : sendResponse H requestId response metadata w =
      deliver H requestId response metadata w1 := by
    simp only [sendResponse, hwrite]
  refine ⟨?_, ?_, rfl, ?_, rfl, rfl, rfl, rfl⟩
  · rw [hs]; simp [deliver, hopen, hp.2.2]
  · rw [hs]; simp [deliver, hopen]
  · rw [hs, (deliver_store H requestId response metadata w1).1]
    exact hp.1

/-- C8 at the host whose relay accepts the connection. -/
theorem sendResponse_channel_actions_witness :
    persist demoHost "r1" "hello" [] emptyMailbox =
      (⟨.present [], .present [("resp-r1.json",
          Node.text (responseText demoHost "r1" "hello" []))], []⟩, .ok ()) ∧
    demoHost.dial (WS_URL demoHost) = none ∧
    (sendResponse demoHost "r1" "hello" [] emptyMailbox).1.trace =
      [Effect.connect "ws://localhost:8765",
        Effect.send (demoHost.stringify (Json.obj (frame "r1" "hello" [])) 0),
        Effect.close] :=
  ⟨rfl, rfl,
    (sendResponse_channel_actions demoHost "r1" "hello" [] emptyMailbox _ rfl rfl).1⟩

/-- C9: when creating the responses directory or writing the response record fails
with an error, `sendResponse` is rejected with that error, and the only action it
adds is the `console.error` line of its `catch`: no connection is opened and no
frame is sent. -/
theorem sendResponse_persist_failure (H : Host) (requestId response : String)
    (metadata : Obj) (w : World) (e : Err)
    (hfail : mkdirp w.responses = .error e ∨
      ∃ d, mkdirp w.responses = .ok d ∧
        writeFile d (responseName requestId) (responseText H requestId response metadata) =
          .error e) :
    (sendResponse H requestId response metadata w).2 = .error e ∧
    (sendResponse H requestId response metadata w).1.trace =
      w.trace ++ [Effect.consoleError "[Claude Brain] Error sending response:" e] ∧
    (∀ url, Effect.connect url ∉ (sendResponse H requestId response metadata w).1.trace ∨
      Effect.connect url ∈ w.trace) ∧
    (∀ data, Effect.send data ∉ (sendResponse H requestId response metadata w).1.trace ∨
      Effect.send data ∈ w.trace) := by
  have htrace : (sendResponse H requestId response metadata w).2 = .error e ∧
      (sendResponse H requestId response metadata w).1.trace =
        w.trace ++ [Effect.consoleError "[Claude Brain] Error sending response:" e] := by
    rcases hfail with hm | ⟨d, hm, hwf⟩
    · simp [sendResponse, persist, hm]
    · simp [sendResponse, persist, hm, hwf]
  refine ⟨htrace.1, htrace.2, ?_, ?_⟩
  · intro url
    by_cases hin : Effect.connect url ∈ w.trace
    · exact Or.inr hin
    · left; rw [htrace.2]; simp [hin]
  · intro data
    by_cases hin : Effect.send data ∈ w.trace
    · exact Or.inr hin
    · left; rw [htrace.2]; simp [hin]

/-- C9 at a response store whose record for `r9` cannot be overwritten. -/
theorem sendResponse_persist_failure_witness :
    (mkdirp lockedResponses.responses = .error Err.EACCES ∨
      ∃ d, mkdirp lockedResponses.responses = .ok d ∧
        writeFile d (responseName "r9") (responseText demoHost "r9" "late" []) =
          .error Err.EACCES) ∧
    (sendResponse demoHost "r9" "late" [] lockedResponses).2 = .error Err.EACCES ∧
    (sendResponse demoHost "r9" "late" [] lockedResponses).1.trace =
      [Effect.consoleError "[Claude Brain] Error sending response:" Err.EACCES] :=
  ⟨Or.inr ⟨_, rfl, rfl⟩,
    (sendResponse_persist_failure demoHost "r9" "late" [] lockedResponses Err.EACCES
      (Or.inr ⟨_, rfl, rfl⟩)).1,
    (sendResponse_persist_failure demoHost "r9" "late" [] lockedResponses Err.EACCES
      (Or.inr ⟨_, rfl, rfl⟩)).2.1⟩

/-! ## The listing never fails -/

/-- C10: `getPendingMessages` never rejects: on every mailbox it resolves with a
sequence; whenever a step of its `try` block fails (the directory cannot be created
or listed, a file cannot be read, a file holds malformed JSON) it resolves with the
empty sequence after logging the error; in particular it resolves with the empty
sequence when the directory cannot be listed. -/
theorem getPendingMessages_never_rejects (H : Host) (w : World) :
    (∃ ms, (getPendingMessages H w).2 = .ok ms) ∧
    (∀ e, (getPendingMessagesTry H w).2 = .error e →
      (getPendingMessages H w).2 = .ok [] ∧
      (getPendingMessages H w).1.trace = w.trace ++
        [Effect.consoleError "[Claude Brain] Error reading pending messages:" e]) ∧
    (∀ e, readdir w.pending = .error e → (getPendingMessages H w).2 = .ok []) := by
  refine ⟨?_, ?_, ?_⟩
  · unfold getPendingMessages
    rcases hres : getPendingMessagesTry H w with ⟨w1, r⟩
    cases r with
    | ok ms => exact ⟨ms, rfl⟩
    | error e => exact ⟨[], rfl⟩
  · intro e he
    have htr : (getPendingMessagesTry H w).1.trace = w.trace := by
      unfold getPendingMessagesTry
      cases hm : mkdirp w.pending with
      | error e' => rfl
      | ok d =>
        simp only
        cases hrd : readdir d with
        | error e' => rfl
        | ok names =>
          simp only
          cases readMessages H d (names.filter isPendingFile) <;> rfl
    unfold getPendingMessages
    rcases hres : getPendingMessagesTry H w with ⟨w1, r⟩
    rw [hres] at he htr
    simp only at he htr
    subst he
    simp [htr]
  · intro e he
    obtain ⟨p, r, t⟩ := w
    cases p with
    | absent => rfl
    | blocked => rfl
    | present d => simp [readdir] at he

/-- C10 at a mailbox with a file of malformed JSON and at a mailbox that cannot be
listed: both calls resolve with the empty sequence and log the error. -/
theorem getPendingMessages_never_rejects_witness :
    (getPendingMessagesTry demoHost brokenMailbox).2 = .error Err.SyntaxError ∧
    (getPendingMessages demoHost brokenMailbox).2 = .ok [] ∧
    (getPendingMessages demoHost brokenMailbox).1.trace =
      [Effect.consoleError "[Claude Brain] Error reading pending messages:" Err.SyntaxError] ∧
    readdir blockedMailbox.pending = .error Err.EACCES ∧
    (getPendingMessages demoHost blockedMailbox).2 = .ok [] :=
  ⟨rfl,
    ((getPendingMessages_never_rejects demoHost brokenMailbox).2.1 Err.SyntaxError rfl).1,
    ((getPendingMessages_never_rejects demoHost brokenMailbox).2.1 Err.SyntaxError rfl).2,
    rfl,
    (getPendingMessages_never_rejects demoHost blockedMailbox).2.2 Err.EACCES rfl⟩

/-! ## One malformed file in the listing -/

/-- C11 at `brokenMailbox`, which holds the well-formed request `A.json` and the
malformed file `bad.json`: the record of `A.json` can be built, yet
`getPendingMessages` resolves with the empty sequence, because the first failure
leaves the loop for the `catch` of the whole function.  The listing of
`claude-watch.js`, which catches per file, returns the record of `A.json` there. -/
theorem getPendingMessages_one_bad_file_empties_listing :
    (recordOf demoHost ("A.json", Node.text (stampText 300))).isSome = true ∧
    (recordOf demoHost ("bad.json", Node.text brokenText)).isSome = false ∧
    listedIds demoHost brokenMailbox = [] ∧
    watchedFiles demoHost brokenMailbox = [some "A.json"] := by
  decide

/-! ## Ties in the listing -/

/-- The listing on any mailbox whose unclaimed files can all be read and parsed. -/
theorem listed_eq_sort (H : Host) (w : World)
    (hnodup : ((files w.pending).map Prod.fst).Nodup)
    (hok : ∀ e ∈ unclaimed (files w.pending), (recordOf H e).isSome = true) :
    listed H w =
      sort (compareFn H) ((unclaimed (files w.pending)).filterMap (recordOf H)) := by
  obtain ⟨p, r, t⟩ := w
  cases p with
  | absent => rfl
  | blocked => rfl
  | present d =>
    simp only [files] at hnodup hok ⊢
    simp [listed, getPendingMessages_present H ⟨.present d, r, t⟩ d rfl hnodup hok]

theorem isSome_of_bind_isSome {α β : Type} (o : Option α) (f : α → Option β)
    (h : (o.bind f).isSome = true) : o.isSome = true := by
  cases o with
  | none => simp at h
  | some a => rfl

/-- C12, as stated, fails: `b.json` and `a.json` carry the same timestamp; listed in
the order `b`, `a` they are returned in that order, not with the smaller id first,
and the same two files listed in the order `a`, `b` give the other result, so the
result depends on the order of the directory listing. -/
theorem getPendingMessages_ties_follow_listing :
    listedIds demoHost tieMailbox = [some "b", some "a"] ∧
    listedIds demoHost tieMailboxSwapped = [some "a", some "b"] ∧
    (files tieMailboxSwapped.pending).Perm (files tieMailbox.pending) := by
  decide

/-- C12, amended: on a mailbox (one entry per name) whose unclaimed files all parse
and carry an integer timestamp, two records with equal timestamps are returned in
the order in which the directory listing has them; and when the timestamps of the
records are pairwise distinct the result is the same for every order of the
directory listing. -/
theorem getPendingMessages_stable (H : Host) (w : World)
    (hnodup : ((files w.pending).map Prod.fst).Nodup)
    (hok : ∀ e ∈ unclaimed (files w.pending),
      ((recordOf H e).bind intTimestamp).isSome = true) :
    (∀ a b : Obj, (intTimestamp a).isSome = true → intTimestamp a = intTimestamp b →
      List.Sublist [a, b] ((unclaimed (files w.pending)).filterMap (recordOf H)) →
      List.Sublist [a, b] (listed H w)) ∧
    ((((unclaimed (files w.pending)).filterMap (recordOf H)).map intTimestamp).Nodup →
      ∀ w' : World, (files w'.pending).Perm (files w.pending) → listed H w' = listed H w) := by
  have hrec : ∀ e ∈ unclaimed (files w.pending), (recordOf H e).isSome = true :=
    fun e he => isSome_of_bind_isSome _ _ (hok e he)
  have hl := listed_eq_sort H w hnodup hrec
  constructor
  · intro a b ha hab hsub
    rw [hl]
    obtain ⟨x, hx⟩ := Option.isSome_iff_exists.mp ha
    have hb : intTimestamp b = some x := by rw [← hab]; exact hx
    have hr : compareFn H a b ≤ 0 := by
      simp [compareFn, timestampOf_of_int H a x hx, timestampOf_of_int H b x hb]
    exact List.pair_sublist_insertionSort hr hsub
  · intro hdistinct w' hperm
    have hnodup' : ((files w'.pending).map Prod.fst).Nodup :=
      (hperm.map Prod.fst).nodup_iff.mpr hnodup
    have hu : (unclaimed (files w'.pending)).Perm (unclaimed (files w.pending)) :=
      hperm.filter _
    have hrec' : ∀ e ∈ unclaimed (files w'.pending), (recordOf H e).isSome = true :=
      fun e he => hrec e (hu.mem_iff.mp he)
    have hl' := listed_eq_sort H w' hnodup' hrec'
    have hrecs : ((unclaimed (files w'.pending)).filterMap (recordOf H)).Perm
        ((unclaimed (files w.pending)).filterMap (recordOf H)) := hu.filterMap _
    have hts : ∀ m ∈ (unclaimed (files w.pending)).filterMap (recordOf H),
        (intTimestamp m).isSome = true := by
      intro m hm
      obtain ⟨e, he, hem⟩ := List.mem_filterMap.mp hm
      have := hok e he
      simpa [hem] using this
    -- both results are permutations of the same records, strictly sorted by timestamp
    have strict : ∀ l : List Obj,
        l.Perm ((unclaimed (files w.pending)).filterMap (recordOf H)) →
        (sort (compareFn H) l).Sorted
          (fun a b => (intTimestamp a).getD 0 < (intTimestamp b).getD 0) := by
      intro l hlp
      have hmem : ∀ m ∈ l, (intTimestamp m).isSome = true :=
        fun m hm => hts m (hlp.mem_iff.mp hm)
      have hsorted := sort_compareFn_sorted H l hmem
      have hnd : ((sort (compareFn H) l).map intTimestamp).Nodup :=
        (((sort_perm (compareFn H) l).trans hlp).map intTimestamp).nodup_iff.mpr hdistinct
      have hne : (sort (compareFn H) l).Pairwise
          (fun a b => intTimestamp a ≠ intTimestamp b) := by
        have := hnd
        unfold List.Nodup at this
        exact List.pairwise_map.mp this
      refine (hsorted.and hne).imp ?_
      rintro a b ⟨⟨x, y, hx, hy, hxy⟩, hneq⟩
      rw [hx, hy] at hneq ⊢
      have : x ≠ y := fun h => hneq (by rw [h])
      simp only [Option.getD_some]
      omega
    haveI : IsAntisymm Obj
        (fun a b => (intTimestamp a).getD 0 < (intTimestamp b).getD 0) :=
      ⟨fun a b h1 h2 => absurd h1 (not_lt.mpr (le_of_lt h2))⟩
    rw [hl, hl']
    exact List.eq_of_perm_of_sorted
      (((sort_perm _ _).trans hrecs).trans (sort_perm _ _).symm)
      (strict _ hrecs) (strict _ (List.Perm.refl _))

/-- C12, amended, at the mailbox of the ordering example. -/
theorem getPendingMessages_stable_witness :
    ((files orderMailbox.pending).map Prod.fst).Nodup ∧
    (∀ e ∈ unclaimed (files orderMailbox.pending),
      ((recordOf demoHost e).bind intTimestamp).isSome = true) ∧
    (((unclaimed (files orderMailbox.pending)).filterMap
        (recordOf demoHost)).map intTimestamp).Nodup ∧
    (∀ a b : Obj, (intTimestamp a).isSome = true → intTimestamp a = intTimestamp b →
      List.Sublist [a, b]
        ((unclaimed (files orderMailbox.pending)).filterMap (recordOf demoHost)) →
      List.Sublist [a, b] (listed demoHost orderMailbox)) ∧
    ((((unclaimed (files orderMailbox.pending)).filterMap
        (recordOf demoHost)).map intTimestamp).Nodup →
      ∀ w' : World, (files w'.pending).Perm (files orderMailbox.pending) →
        listed demoHost w' = listed demoHost orderMailbox) :=
  ⟨by decide, by decide, by decide,
    getPendingMessages_stable demoHost orderMailbox (by decide) (by decide)⟩

/-! ## Building the context: `buildContext` -/

/-- C13: `buildContext` never throws: for every profile id and every state of the
profile tree it resolves with a context record; when the profile file can be read
the profile field is its text, and when the read fails the profile field is `null`;
in both cases the other fields are the empty sequences they were initialised with. -/
theorem buildContext_never_fails (profiles : DirState) (profileId : Option String) :
    (∃ c, buildContext profiles profileId = .ok c ∧
      c.challenges = [] ∧ c.tasks = [] ∧ c.recentActivity = []) ∧
    (∀ text, readFile profiles (profileId.getD "default") = .ok text →
      buildContext profiles profileId = .ok ⟨some text, [], [], []⟩) ∧
    (∀ e, readFile profiles (profileId.getD "default") = .error e →
      buildContext profiles profileId = .ok ⟨none, [], [], []⟩) := by
  unfold buildContext
  cases hr : readFile profiles (profileId.getD "default") with
  | ok text =>
    refine ⟨⟨_, rfl, rfl, rfl, rfl⟩, ?_, ?_⟩
    · intro t ht
      injection ht with ht
      subst ht
      rfl
    · intro e he
      exact absurd he (by simp)
  | error e =>
    refine ⟨⟨_, rfl, rfl, rfl, rfl⟩, ?_, ?_⟩
    · intro t ht
      exact absurd ht (by simp)
    · intro e' _
      rfl

/-- C13 at a profile tree with one readable and one unreadable profile. -/
theorem buildContext_never_fails_witness :
    readFile demoProfiles "anit-gmail-co" = .ok "# Anit" ∧
    buildContext demoProfiles (some "anit-gmail-co") = .ok ⟨some "# Anit", [], [], []⟩ ∧
    readFile demoProfiles "sealed" = .error Err.EACCES ∧
    buildContext demoProfiles (some "sealed") = .ok ⟨none, [], [], []⟩ ∧
    buildContext DirState.absent none = .ok ⟨none, [], [], []⟩ :=
  ⟨rfl,
    (buildContext_never_fails demoProfiles (some "anit-gmail-co")).2.1 "# Anit" rfl,
    rfl,
    (buildContext_never_fails demoProfiles (some "sealed")).2.2 Err.EACCES rfl,
    (buildContext_never_fails DirState.absent none).2.2 Err.ENOENT rfl⟩

/-! ## The listing of `claude-watch.js` against the core listing -/

/-- C16 at `claimedMailbox`, whose pending directory exists and holds only the claim
marker `.processing-abc.json`: the core listing returns nothing, the listing of
`claude-watch.js`, whose filter is `f.endsWith('.json')` alone, returns the claimed
record. -/
theorem watch_lists_claimed_record :
    Watch.existsSync claimedMailbox.pending = true ∧
    (entry claimedMailbox.pending (processingName "abc")).isSome = true ∧
    listedIds demoHost claimedMailbox = [] ∧
    watchedIds demoHost claimedMailbox = [some "abc"] ∧
    watchedFiles demoHost claimedMailbox = [some ".processing-abc.json"] := by
  decide

/-! ## The claim as a relabel with a frame -/

/-- C17: for an id without a path separator, when `<id>.json` is present, after
`markProcessing(id)` the name `<id>.json` is absent, `.processing-<id>.json` holds
exactly what `<id>.json` held, every other entry of the pending directory is as it
was and the response store is unchanged; when `<id>.json` is not present the
pending directory and the response store are unchanged. -/
theorem markProcessing_relabels (messageId : String) (w : World)
    (_hsep : Char.ofNat 47 ∉ messageId.data) :
    (∀ node, entry w.pending (pendingName messageId) = some node →
      entry (markProcessing messageId w).1.pending (pendingName messageId) = none ∧
      entry (markProcessing messageId w).1.pending (processingName messageId) = some node ∧
      (∀ name, name ≠ pendingName messageId → name ≠ processingName messageId →
        entry (markProcessing messageId w).1.pending name = entry w.pending name) ∧
      (markProcessing messageId w).1.responses = w.responses) ∧
    (entry w.pending (pendingName messageId) = none →
      (markProcessing messageId w).1.pending = w.pending ∧
      (markProcessing messageId w).1.responses = w.responses) := by
  obtain ⟨p, r, t⟩ := w
  constructor
  · intro node h
    cases p with
    | absent => simp [entry] at h
    | blocked => simp [entry] at h
    | present d =>
      simp only [entry] at h
      have hp := markProcessing_pending messageId ⟨.present d, r, t⟩ d node rfl h
      have hb : (pendingName messageId == processingName messageId) = false := by
        simpa using pendingName_ne_processingName messageId
      refine ⟨?_, ?_, ?_, ?_⟩
      · rw [hp]; simp [entry, lookup_append_dir, lookup_without_two, List.lookup, hb]
      · rw [hp]; simp [entry, lookup_append_dir, lookup_without_two, List.lookup]
      · intro name h1 h2
        have hb2 : (name == processingName messageId) = false := by simpa using h2
        rw [hp]
        simp [entry, lookup_append_dir, lookup_without_two, List.lookup, h1, h2, hb2]
      · simp [markProcessing, markProcessingTry, rename, h, pendingName_ne_processingName]
  · intro h
    cases p with
    | absent => exact ⟨rfl, rfl⟩
    | blocked => exact ⟨rfl, rfl⟩
    | present d =>
      simp only [entry] at h
      constructor <;> simp [markProcessing, markProcessingTry, rename, h]

/-- C17 at the claim of `B` in the mailbox of the ordering example. -/
theorem markProcessing_relabels_witness :
    Char.ofNat 47 ∉ "B".data ∧
    entry orderMailbox.pending (pendingName "B") = some (Node.text (stampText 100)) ∧
    entry (markProcessing "B" orderMailbox).1.pending (pendingName "B") = none ∧
    entry (markProcessing "B" orderMailbox).1.pending (processingName "B") =
      some (Node.text (stampText 100)) ∧
    (∀ name, name ≠ pendingName "B" → name ≠ processingName "B" →
      entry (markProcessing "B" orderMailbox).1.pending name =
        entry orderMailbox.pending name) ∧
    (markProcessing "B" orderMailbox).1.responses = orderMailbox.responses :=
  ⟨by decide, by decide,
    (markProcessing_relabels "B" orderMailbox (by decide)).1 (Node.text (stampText 100))
      (by decide)⟩

/-! ## The end-to-end scenario -/

/-- C14: on a host that parses the text of `abc.json` to the request `{id: "abc",
agentId: "unified", content: "hi", timestamp: 1000}` and whose relay accepts the
connection, starting from the mailbox that holds only `abc.json`: the listing
returns `abc`; `markProcessing("abc")` performs the rename; `sendResponse("abc",
"hello back", {})` resolves and its actions on the channel are the connect, one send
of the frame with type `chat_response`, requestId `abc` and message `hello back`,
and the close; `cleanupMessage("abc")` removes the claim marker; afterwards neither
`abc.json` nor `.processing-abc.json` is there and the listing is empty. -/
theorem end_to_end_scenario (H : Host)
    (hparse : H.parse abcText = some (Json.obj abcRecord))
    (hdial : H.dial (WS_URL H) = none) :
    listedIds H abcMailbox = [some "abc"] ∧
    markProcessingTry "abc" abcMailbox = .ok claimedMailbox ∧
    markProcessing "abc" abcMailbox = (claimedMailbox, .ok ()) ∧
    (sendResponse H "abc" "hello back" [] claimedMailbox).2 = .ok () ∧
    (sendResponse H "abc" "hello back" [] claimedMailbox).1.trace =
      [Effect.connect (WS_URL H),
       Effect.send (H.stringify (Json.obj
         [("type", Json.str "chat_response"), ("requestId", Json.str "abc"),
          ("message", Json.str "hello back"), ("metadata", Json.obj []),
          ("source", Json.str "claude-code")]) 0),
       Effect.close] ∧
    (sendResponse H "abc" "hello back" [] claimedMailbox).1.pending = claimedMailbox.pending ∧
    entry (cleanupMessage "abc"
      (sendResponse H "abc" "hello back" [] claimedMailbox).1).1.pending
        (processingName "abc") = none ∧
    entry (cleanupMessage "abc"
      (sendResponse H "abc" "hello back" [] claimedMailbox).1).1.pending
        (pendingName "abc") = none ∧
    listedIds H (cleanupMessage "abc"
      (sendResponse H "abc" "hello back" [] claimedMailbox).1).1 = [] := by
  have hsend : sendResponse H "abc" "hello back" [] claimedMailbox =
      (⟨claimedMailbox.pending,
        .present [("resp-abc.json", Node.text (responseText H "abc" "hello back" []))],
        [Effect.connect (WS_URL H),
         Effect.send (H.stringify (Json.obj (frame "abc" "hello back" [])) 0),
         Effect.close]⟩, .ok ()) := by
    simp [sendResponse, persist, deliver, hdial, claimedMailbox, mkdirp, writeFile,
      responseName]
  have hclean : (cleanupMessage "abc"
      (sendResponse H "abc" "hello back" [] claimedMailbox).1).1.pending = .present [] := by
    rw [hsend]
    rfl
  refine ⟨?_, rfl, rfl, ?_, ?_, ?_, ?_, ?_, ?_⟩
  · have hl := getPendingMessages_present H abcMailbox
      [("abc.json", Node.text abcText)] rfl (by decide)
      (by intro e he; simp [unclaimed] at he; obtain ⟨rfl, -⟩ := he; simp [recordOf, hparse])
    have hu : unclaimed [("abc.json", Node.text abcText)] = [("abc.json", Node.text abcText)] := by
      decide
    simp only [listedIds, listed, hl, hu, List.filterMap, recordOf, hparse, Option.map_some']
    simp [sort, mkMessage, spread, spreadProps, abcRecord, Obj.set, idOf, Obj.get, List.lookup]
  · rw [hsend]
  · rw [hsend]; rfl
  · rw [hsend]
  · rw [hclean]; rfl
  · rw [hclean]; rfl
  · have hw : (cleanupMessage "abc"
        (sendResponse H "abc" "hello back" [] claimedMailbox).1).1 =
        ⟨.present [], .present [("resp-abc.json",
          Node.text (responseText H "abc" "hello back" []))],
          [Effect.connect (WS_URL H),
           Effect.send (H.stringify (Json.obj (frame "abc" "hello back" [])) 0),
           Effect.close]⟩ := by
      rw [hsend]
      rfl
    rw [hw]
    rfl

/-- C14 at the concrete host. -/
theorem end_to_end_scenario_witness :
    demoHost.parse abcText = some (Json.obj abcRecord) ∧
    demoHost.dial (WS_URL demoHost) = none ∧
    listedIds demoHost abcMailbox = [some "abc"] ∧
    (sendResponse demoHost "abc" "hello back" [] claimedMailbox).1.trace =
      [Effect.connect "ws://localhost:8765",
       Effect.send (demoHost.stringify (Json.obj
         [("type", Json.str "chat_response"), ("requestId", Json.str "abc"),
          ("message", Json.str "hello back"), ("metadata", Json.obj []),
          ("source", Json.str "claude-code")]) 0),
       Effect.close] ∧
    listedIds demoHost (cleanupMessage "abc"
      (sendResponse demoHost "abc" "hello back" [] claimedMailbox).1).1 = [] :=
  ⟨rfl, rfl, (end_to_end_scenario demoHost rfl rfl).1,
    (end_to_end_scenario demoHost rfl rfl).2.2.2.2.1,
    (end_to_end_scenario demoHost rfl rfl).2.2.2.2.2.2.2.2⟩

/-! ## The id of a record and the name of its file -/

theorem get_set (o : Obj) (k k' : String) (v : Json) :
    (o.set k v).get k' = if k' = k then some v else o.get k' := by
  induction o with
  | nil =>
    by_cases h : k' = k
    · subst h; simp [Obj.set, Obj.get, List.lookup]
    · have hb : (k' == k) = false := by simpa using h
      simp [Obj.set, Obj.get, List.lookup, hb, h]
  | cons x rest ih =>
    obtain ⟨k1, v1⟩ := x
    by_cases h1 : k1 = k
    · subst h1
      by_cases h : k' = k1
      · subst h; simp [Obj.set, Obj.get, List.lookup]
      · have hb : (k' == k1) = false := by simpa using h
        simp [Obj.set, Obj.get, List.lookup, hb, h]
    · simp only [Obj.set, if_neg h1, Obj.get, List.lookup] at ih ⊢
      cases hk : k' == k1 with
      | true =>
        have hk' : k' = k1 := by simpa using hk
        have hne : k' ≠ k := fun h => h1 (hk' ▸ h)
        simp [hne]
      | false => exact ih

/-- A property of a spread is the one the spread content carries, and otherwise the
one of the base. -/
theorem get_foldl_set (props : List (String × Json)) (base : Obj) (k : String) :
    Obj.get (props.foldl (fun (o : Obj) (p : String × Json) => o.set p.1 p.2) base) k =
      (Obj.get (props.foldl (fun (o : Obj) (p : String × Json) => o.set p.1 p.2)
        ([] : Obj)) k).orElse (fun _ => base.get k) := by
  induction props generalizing base with
  | nil => simp [Obj.get]
  | cons p rest ih =>
    simp only [List.foldl_cons]
    rw [ih (base.set p.1 p.2), ih (Obj.set [] p.1 p.2), get_set, get_set]
    by_cases hk : k = p.1
    · simp only [hk, if_true]
      cases Obj.get (List.foldl (fun (o : Obj) (p : String × Json) => o.set p.1 p.2)
        ([] : Obj) rest) p.1 <;> rfl
    · simp only [hk, if_false]
      cases Obj.get (List.foldl (fun (o : Obj) (p : String × Json) => o.set p.1 p.2)
        ([] : Obj) rest) k <;> simp [Obj.get]

/-- The `id` of the object of lines 35-39: the `id` the content carries, and otherwise
what line 36 computes from the file name. -/
theorem get_mkMessage_id (H : Host) (file : String) (data : Json) :
    Obj.get (mkMessage H file data) "id" =
      some ((contentId data).getD (Json.str (replace file ".json" ""))) := by
  unfold mkMessage contentId spread
  rw [get_foldl_set]
  cases Obj.get (List.foldl (fun (o : Obj) (p : String × Json) => o.set p.1 p.2)
      ([] : Obj) (spreadProps data)) "id" with
  | none => simp [Obj.get, List.lookup]
  | some v => rfl

/-- The pattern `.json` does not overlap itself. -/
theorem json_no_border :
    ∀ k, k < 5 → 0 < k → (".json".data.drop k).isPrefixOf ".json".data = false := by
  decide

/-- On a name made of a stem that does not contain `.json` followed by `.json`, the
first occurrence of `.json` is the suffix. -/
theorem replaceFirst_json_suffix (t : List Char) (h : ¬ List.IsInfix ".json".data t) :
    replaceFirst ".json".data [] (t ++ ".json".data) = t := by
  induction t with
  | nil => decide
  | cons c t ih =>
    have ht : ¬ List.IsInfix ".json".data t :=
      fun h' => h (h'.trans (List.suffix_cons c t).isInfix)
    have hnp : ".json".data.isPrefixOf (c :: (t ++ ".json".data)) = false := by
      cases hp : ".json".data.isPrefixOf (c :: (t ++ ".json".data)) with
      | false => rfl
      | true =>
        exfalso
        rw [List.isPrefixOf_iff_prefix] at hp
        obtain ⟨s, hs⟩ := hp
        have hs' : ".json".data ++ s = (c :: t) ++ ".json".data := by simpa using hs
        rcases List.append_eq_append_iff.mp hs' with ⟨a', ha, -⟩ | ⟨c', hc, hd⟩
        · exact h (ha ▸ (List.prefix_append _ _).isInfix)
        · have hlen : (".json".data).length = (c :: t).length + c'.length := by
            rw [hc, List.length_append]
          have h5 : (".json".data).length = 5 := by decide
          have hpos : 0 < (c :: t).length := by simp
          have hdrop : ".json".data.drop (c :: t).length = c' := by
            rw [hc]; simp
          have hpre : c' <+: ".json".data := ⟨s, hd.symm⟩
          have hcpos : 0 < c'.length := by
            rcases Nat.eq_zero_or_pos c'.length with h0 | h0
            · exfalso
              have hnil : c' = [] := List.length_eq_zero.mp h0
              rw [hnil, List.append_nil] at hc
              exact h (hc ▸ List.infix_refl _)
            · exact h0
          have hb := json_no_border (c :: t).length (by omega) hpos
          rw [hdrop] at hb
          rw [List.isPrefixOf_iff_prefix.mpr hpre] at hb
          exact Bool.noConfusion hb
    show replaceFirst ".json".data [] (c :: (t ++ ".json".data)) = c :: t
    simp only [replaceFirst, hnp]
    simp [ih ht]

/-- On the name of a request file whose stem does not contain `.json`, line 36
computes the stem. -/
theorem replace_json_eq_stem (f : String) (hends : endsWith f ".json" = true)
    (h : ¬ List.IsInfix ".json".data (stem f).data) :
    replace f ".json" "" = stem f := by
  have hf := endsWith_json_eq f hends
  have hdata : f.data = (stem f).data ++ ".json".data := by
    conv_lhs => rw [hf]
    simp [pendingName]
  apply String.ext
  simp only [replace]
  rw [hdata]
  exact replaceFirst_json_suffix _ h

/-- The first occurrence of `.json` need not be the suffix: line 36 turns the name
`x.jsonfoo.json` into the id `xfoo.json`, which is not its stem. -/
theorem replace_takes_first_occurrence :
    replace "x.jsonfoo.json" ".json" "" = "xfoo.json" ∧ stem "x.jsonfoo.json" = "x.jsonfoo" := by
  decide

theorem recordOf_eq_map (H : Host) (e : String × Node) :
    recordOf H e = (dataOf H e).map (mkMessage H e.1) := by
  obtain ⟨k, v⟩ := e
  cases v <;> rfl

theorem endsWith_of_mem_unclaimed (d : Dir) (e : String × Node) (he : e ∈ unclaimed d) :
    endsWith e.1 ".json" = true := by
  have := (List.mem_filter.mp he).2
  simp [isPendingFile] at this
  exact this.1

/-- When every record carries the stem of its file as id, the ids of the records
are the stems of the files, in order. -/
theorem map_idOf_records (H : Host) (u : Dir)
    (hall : ∀ e ∈ u, (recordOf H e).isSome = true)
    (hkey : ∀ e ∈ u, ∀ m ∈ recordOf H e, idOf m = some (stem e.1)) :
    (u.filterMap (recordOf H)).map idOf = u.map (fun e => some (stem e.1)) := by
  induction u with
  | nil => rfl
  | cons x rest ih =>
    have hx := hall x (List.mem_cons_self _ _)
    obtain ⟨m, hm⟩ := Option.isSome_iff_exists.mp hx
    have hid := hkey x (List.mem_cons_self _ _) m hm
    simp only [List.filterMap_cons, hm, List.map_cons, hid]
    rw [ih (fun e he => hall e (List.mem_cons_of_mem _ he))
      (fun e he => hkey e (List.mem_cons_of_mem _ he))]

/-- C15, as stated, fails: in `aliasMailbox` the record read from `other.json` has
the id `abc` that its content carries, not the stem `other` of its file, and the
two ids of the listing are equal. -/
theorem getPendingMessages_id_from_content :
    stem "other.json" = "other" ∧
    (recordOf demoHost ("other.json", Node.text aliasText)).bind idOf = some "abc" ∧
    listedIds demoHost aliasMailbox = [some "abc", some "abc"] := by
  decide

/-- C15, amended: in every mailbox (one entry per name) each record of the listing
was read from an unclaimed file, and its id is the `id` its content carries when it
carries one, and otherwise what line 36 computes from the file name.  When the
content of every unclaimed file either carries the stem of its file name as `id`, or
carries no `id` under a name that holds `.json` only as its suffix, then the id of
every record is the stem of the file it was read from, `markProcessing` of that id
claims exactly that file (its name is gone and the marker holds what it held), and
the ids of the listing are pairwise distinct. -/
theorem getPendingMessages_id_is_stem (H : Host) (w : World)
    (hnodup : ((files w.pending).map Prod.fst).Nodup) :
    (∀ m ∈ listed H w, ∃ e ∈ unclaimed (files w.pending), ∃ data,
      dataOf H e = some data ∧ recordOf H e = some m ∧
      (∀ v, contentId data = some v → Obj.get m "id" = some v) ∧
      (contentId data = none →
        Obj.get m "id" = some (Json.str (replace e.1 ".json" "")))) ∧
    ((∀ e ∈ unclaimed (files w.pending), ∀ data ∈ dataOf H e,
        carriesId data (stem e.1) = true ∨
        ((contentId data).isNone = true ∧ ¬ List.IsInfix ".json".data (stem e.1).data)) →
      (∀ m ∈ listed H w, ∃ e ∈ unclaimed (files w.pending),
        recordOf H e = some m ∧ idOf m = some (stem e.1) ∧
        pendingName (stem e.1) = e.1 ∧
        entry (markProcessing (stem e.1) w).1.pending e.1 = none ∧
        entry (markProcessing (stem e.1) w).1.pending (processingName (stem e.1)) =
          some e.2) ∧
      ((listed H w).map idOf).Nodup) := by
  obtain ⟨p, r, t⟩ := w
  cases p with
  | absent =>
    exact ⟨fun m hm => absurd hm (List.not_mem_nil _),
      fun _ => ⟨fun m hm => absurd hm (List.not_mem_nil _), List.nodup_nil⟩⟩
  | blocked =>
    exact ⟨fun m hm => absurd hm (List.not_mem_nil _),
      fun _ => ⟨fun m hm => absurd hm (List.not_mem_nil _), List.nodup_nil⟩⟩
  | present d =>
    simp only [files] at hnodup ⊢
    constructor
    · intro m hm
      rw [mem_listed_present H ⟨.present d, r, t⟩ d rfl hnodup] at hm
      obtain ⟨-, e, he, hem⟩ := hm
      have hem' := hem
      rw [recordOf_eq_map] at hem'
      obtain ⟨data, hdata, rfl⟩ := Option.map_eq_some'.mp hem'
      refine ⟨e, he, data, hdata, hem, ?_, ?_⟩
      · intro v hv
        rw [get_mkMessage_id, hv]
        rfl
      · intro hnone
        rw [get_mkMessage_id, hnone]
        rfl
    · intro hplain
      have hkey : ∀ e ∈ unclaimed d, ∀ m ∈ recordOf H e, idOf m = some (stem e.1) := by
        intro e he m hm
        rw [recordOf_eq_map] at hm
        obtain ⟨data, hdata, rfl⟩ := Option.map_eq_some'.mp hm
        have hget := get_mkMessage_id H e.1 data
        rcases hplain e he data hdata with hc | ⟨hn, hinf⟩
        · unfold carriesId at hc
          cases hci : contentId data with
          | none => simp [hci] at hc
          | some v =>
            rw [hci] at hget
            cases v with
            | str s =>
              have hs : s = stem e.1 := by simpa [hci] using hc
              unfold idOf
              rw [hget, hs]
              rfl
            | null => simp [hci] at hc
            | bool b => simp [hci] at hc
            | num n => simp [hci] at hc
            | arr xs => simp [hci] at hc
            | obj ms => simp [hci] at hc
        · have hci : contentId data = none := by
            cases hci : contentId data with
            | none => rfl
            | some v => simp [hci] at hn
          rw [hci] at hget
          unfold idOf
          rw [hget]
          simp only [Option.getD_none]
          rw [replace_json_eq_stem e.1 (endsWith_of_mem_unclaimed _ e he) hinf]
      constructor
      · intro m hm
        rw [mem_listed_present H ⟨.present d, r, t⟩ d rfl hnodup] at hm
        obtain ⟨-, e, he, hem⟩ := hm
        have hname : pendingName (stem e.1) = e.1 :=
          (endsWith_json_eq e.1 (endsWith_of_mem_unclaimed d e he)).symm
        have hentry : entry (World.mk (.present d) r t).pending (pendingName (stem e.1)) =
            some e.2 := by
          rw [hname]
          exact lookup_of_mem_nodup d hnodup e (List.mem_of_mem_filter he)
        obtain ⟨w1, h1, -, -, h3, h4, -⟩ :=
          markProcessingTry_present (stem e.1) ⟨.present d, r, t⟩ e.2 hentry
        have hw : (markProcessing (stem e.1) ⟨.present d, r, t⟩).1 = w1 := by
          simp [markProcessing, h1]
        refine ⟨e, he, hem, hkey e he m hem, hname, ?_, ?_⟩
        · rw [hw, ← hname]; exact h3
        · rw [hw]; exact h4
      · rw [listed_present H ⟨.present d, r, t⟩ d rfl hnodup]
        by_cases hall : ∀ e ∈ unclaimed d, (recordOf H e).isSome = true
        · rw [if_pos hall]
          have hperm :=
            (sort_perm (compareFn H) ((unclaimed d).filterMap (recordOf H))).map idOf
          rw [hperm.nodup_iff, map_idOf_records H (unclaimed d) hall hkey]
          have hnames : ((unclaimed d).map Prod.fst).Nodup :=
            ((List.filter_sublist d).map Prod.fst).nodup hnodup
          have hinj : ∀ x ∈ (unclaimed d).map Prod.fst, ∀ y ∈ (unclaimed d).map Prod.fst,
              (some (stem x) : Option String) = some (stem y) → x = y := by
            intro x hx y hy hxy
            obtain ⟨ex, hex, rfl⟩ := List.mem_map.mp hx
            obtain ⟨ey, hey, rfl⟩ := List.mem_map.mp hy
            rw [endsWith_json_eq ex.1 (endsWith_of_mem_unclaimed d ex hex),
              endsWith_json_eq ey.1 (endsWith_of_mem_unclaimed d ey hey),
              Option.some.inj hxy]
          have := List.Nodup.map_on hinj hnames
          simpa [List.map_map] using this
        · rw [if_neg hall]
          exact List.nodup_nil

/-- C15, amended, at a mailbox with a request whose content names its own id and a
request whose content carries none. -/
theorem getPendingMessages_id_is_stem_witness :
    ((files mixedMailbox.pending).map Prod.fst).Nodup ∧
    (∀ e ∈ unclaimed (files mixedMailbox.pending), ∀ data ∈ dataOf demoHost e,
      carriesId data (stem e.1) = true ∨
      ((contentId data).isNone = true ∧ ¬ List.IsInfix ".json".data (stem e.1).data)) ∧
    listedIds demoHost mixedMailbox = [some "B", some "abc"] ∧
    ((listed demoHost mixedMailbox).map idOf).Nodup :=
  ⟨by decide, by decide, by decide,
    ((getPendingMessages_id_is_stem demoHost mixedMailbox (by decide)).2 (by decide)).2⟩

end ClaudeBrain
